import Mathlib

/-! Verification of the rag-customer-support text-processing core against its
specification.  Python strings are modelled as `List Char`; `re` matching of
the fixed default patterns is modelled by dedicated recursive matchers;
machine integers are `Int`/`Nat`; the unbounded `while` loop of the chunker
is modelled with explicit fuel (`none` = the loop has not finished within
`fuel` iterations, for any fuel = divergence).
-/

namespace RagSupport

/-- Whitespace characters recognised by Python's `str.split` / `str.strip`
and by `\s` of the `re` module (ASCII range). -/
def isWsChar (c : Char) : Bool :=
  c = ' ' || c = '\t' || c = '\n' || c = '\r' || c = '\x0b' || c = '\x0c'

/-- Python `str.split()` with no arguments: split on whitespace runs, dropping
empty pieces.  The accumulator holds the current word, reversed. -/
def pySplitAux : List Char → List Char → List (List Char)
  | [], acc => if acc.isEmpty then [] else [acc.reverse]
  | c :: cs, acc =>
    if isWsChar c then
      if acc.isEmpty then pySplitAux cs [] else acc.reverse :: pySplitAux cs []
    else pySplitAux cs (c :: acc)

/-- Python `text.split()` of `chunk_text` (helpers.py line 30). -/
def pySplit (text : List Char) : List (List Char) := pySplitAux text []

/-- Python `" ".join(words)` (helpers.py line 37). -/
def joinSpace (words : List (List Char)) : List Char :=
  (List.intercalate [' '] words)

/-- Python list slicing `l[a:b]` with full index-clamping semantics
(negative indices count from the end). -/
def pySlice (l : List (List Char)) (a b : Int) : List (List Char) :=
  let n : Int := l.length
  let a' : Nat := (if a < 0 then max (n + a) 0 else min a n).toNat
  let b' : Nat := (if b < 0 then max (n + b) 0 else min b n).toNat
  (l.drop a').take (b' - a')

/-- The `while start < total_words` loop of `chunk_text`
(helpers.py lines 35-39), with explicit fuel.  `none` means the loop has
not terminated within `fuel` iterations.  Arithmetic on `start` is over
`Int`, as in Python. -/
def chunkLoop (words : List (List Char)) (cs ov : Int) :
    Nat → Int → Option (List (List Char))
  | 0, start => if start < (words.length : Int) then none else some []
  | fuel + 1, start =>
    if start < (words.length : Int) then
      (chunkLoop words cs ov fuel (start + (cs - ov))).map
        (fun rest =>
          joinSpace (pySlice words start (min (start + cs) (words.length : Int)))
            :: rest)
    else some []

/-- Python `chunk_text(text, chunk_size, overlap)` (helpers.py lines 19-41),
fuelled: `some chunks` iff the loop finishes within `fuel` iterations. -/
def chunk_text (fuel : Nat) (text : List Char) (cs ov : Int) :
    Option (List (List Char)) :=
  chunkLoop (pySplit text) cs ov fuel 0

/-- The same loop at the level of word lists, for word-count reasoning:
chunk `i` is `(words.drop start).take cs` with `start` advancing by
`cs - ov` (natural subtraction; used only under `ov < cs`). -/
def chunkGo (words : List (List Char)) (cs ov : Nat) :
    Nat → Nat → Option (List (List (List Char)))
  | 0, start => if start < words.length then none else some []
  | fuel + 1, start =>
    if start < words.length then
      (chunkGo words cs ov fuel (start + (cs - ov))).map
        (fun rest => ((words.drop start).take cs) :: rest)
    else some []

/-- The relation between successive chunks (word level): a full-size earlier
chunk shares exactly `ov` trailing/leading words with the next one; an
earlier chunk that was truncated by the end of the text contains the next
chunk entirely as its suffix. -/
def ChunkRel (cs ov : Nat) (c₁ c₂ : List (List Char)) : Prop :=
  (c₁.length = cs → c₂.take ov = c₁.drop (cs - ov) ∧ ov ≤ c₂.length) ∧
  (c₁.length < cs → c₂ = c₁.drop (cs - ov))

/-- Reconstruction view: all but the last chunk contribute their first
`cs - ov` words, the last chunk contributes all its words. -/
def chunkRecon (cs ov : Nat) (l : List (List (List Char))) : List (List Char) :=
  ((l.dropLast.map (fun c => c.take (cs - ov))).flatten) ++ l.getLastD []

lemma chunkLoop_stuck (words : List (List Char)) (h : 0 < words.length)
    (cs : Int) : ∀ fuel, chunkLoop words cs cs fuel 0 = none := by
  intro fuel
  induction fuel with
  | zero =>
      simp only [chunkLoop]
      rw [if_pos (by exact_mod_cast h)]
  | succ f ih =>
      simp only [chunkLoop]
      rw [if_pos (by exact_mod_cast h)]
      simp [sub_self, ih]

lemma pySlice_nat (words : List (List Char)) (start cs : Nat) :
    pySlice words start (min ((start : Int) + cs) (words.length : Int)) =
      (words.drop start).take cs := by
  have tonat : ∀ (a b : Nat), (min (a : Int) (b : Int)).toNat = min a b := by
    intro a b; rw [← Nat.cast_min, Int.toNat_natCast]
  simp only [pySlice]
  have h1 : ¬ ((start : Int) < 0) := (Int.natCast_nonneg start).not_lt
  have h2 : min ((start : Int) + cs) (words.length : Int) =
      ((min (start + cs) words.length : Nat) : Int) := by push_cast; ring_nf
  rw [if_neg h1, h2]
  rw [if_neg (Int.natCast_nonneg _).not_lt]
  rw [tonat, tonat]
  rcases le_or_lt start words.length with hle | hlt
  · rw [min_eq_left hle]
    rw [List.take_eq_take]
    simp only [List.length_take, List.length_drop]
    omega
  · rw [min_eq_right hlt.le]
    rw [List.drop_eq_nil_of_le hlt.le, List.drop_eq_nil_of_le le_rfl]
    simp

lemma chunkLoop_eq_go (words : List (List Char)) (cs ov : Nat) (h : ov ≤ cs) :
    ∀ fuel (start : Nat),
      chunkLoop words cs ov fuel start =
        (chunkGo words cs ov fuel start).map (List.map joinSpace) := by
  intro fuel
  induction fuel with
  | zero =>
      intro start
      simp only [chunkLoop, chunkGo]
      by_cases hs : start < words.length
      · rw [if_pos (by exact_mod_cast hs), if_pos hs]; rfl
      · rw [if_neg (by exact_mod_cast hs), if_neg hs]; rfl
  | succ f ih =>
      intro start
      simp only [chunkLoop, chunkGo]
      by_cases hs : start < words.length
      · rw [if_pos (by exact_mod_cast hs), if_pos hs]
        have hstep : (start : Int) + ((cs : Int) - (ov : Int)) =
            ((start + (cs - ov) : Nat) : Int) := by
          push_cast [Nat.cast_sub h]; ring
        rw [hstep, ih (start + (cs - ov))]
        rw [pySlice_nat words start cs]
        cases chunkGo words cs ov f (start + (cs - ov)) <;> rfl
      · rw [if_neg (by exact_mod_cast hs), if_neg hs]; rfl

lemma take_drop_chunk (words : List (List Char)) (start cs d : Nat)
    (hd : d ≤ cs) :
    ((words.drop (start + d)).take cs).take
        (((words.drop start).take cs).length - d) =
      ((words.drop start).take cs).drop d := by
  rw [List.drop_take, List.drop_drop, List.take_take, List.take_eq_take]
  simp only [List.length_take, List.length_drop]
  omega

lemma chunkRecon_cons₂ (cs ov : Nat) (c₀ c₁ : List (List Char))
    (rest : List (List (List Char))) :
    chunkRecon cs ov (c₀ :: c₁ :: rest) =
      c₀.take (cs - ov) ++ chunkRecon cs ov (c₁ :: rest) := by
  simp [chunkRecon, List.getLastD]

lemma chunkRel_step (words : List (List Char)) (cs ov start : Nat)
    (h : ov < cs) :
    ChunkRel cs ov ((words.drop start).take cs)
      ((words.drop (start + (cs - ov))).take cs) := by
  constructor
  · intro hfull
    constructor
    · have htd := take_drop_chunk words start cs (cs - ov) (by omega)
      rw [hfull] at htd
      have hov : cs - (cs - ov) = ov := by omega
      rw [hov] at htd
      exact htd
    · simp only [List.length_take, List.length_drop] at hfull ⊢
      omega
  · intro hshort
    simp only [List.length_take, List.length_drop] at hshort
    have hlen : words.length - (start + (cs - ov)) ≤ cs := by omega
    rw [List.drop_take, List.drop_drop]
    rw [List.take_of_length_le (by simp [List.length_drop]; omega),
      List.take_of_length_le (by simp [List.length_drop]; omega)]

lemma chunkGo_spec (words : List (List Char)) (cs ov : Nat) (h : ov < cs) :
    ∀ fuel (start : Nat), words.length ≤ start + fuel * (cs - ov) →
      ∃ l, chunkGo words cs ov fuel start = some l ∧
        (words.length ≤ start → l = []) ∧
        (start < words.length →
          l.head? = some ((words.drop start).take cs)) ∧
        List.Chain' (ChunkRel cs ov) l ∧
        chunkRecon cs ov l = words.drop start := by
  intro fuel
  induction fuel with
  | zero =>
      intro start hf
      simp only [Nat.zero_mul, Nat.add_zero] at hf
      refine ⟨[], ?_, fun _ => rfl, fun hlt => absurd hlt (by omega), by simp, ?_⟩
      · simp only [chunkGo]; rw [if_neg (by omega)]
      · simp [chunkRecon, List.drop_eq_nil_of_le hf]
  | succ f ih =>
      intro start hf
      by_cases hs : start < words.length
      · have hf' : words.length ≤ (start + (cs - ov)) + f * (cs - ov) := by
          have hmul : (f + 1) * (cs - ov) = (cs - ov) + f * (cs - ov) := by ring
          omega
        obtain ⟨rest, hrest, hnil, hhead, hchain, hrecon⟩ :=
          ih (start + (cs - ov)) hf'
        refine ⟨((words.drop start).take cs) :: rest, ?_, ?_, ?_, ?_, ?_⟩
        · simp only [chunkGo]; rw [if_pos hs, hrest]; rfl
        · intro hle; omega
        · intro _; rfl
        · rw [List.chain'_cons']
          refine ⟨?_, hchain⟩
          intro c₂ hc₂
          have hrestlt : start + (cs - ov) < words.length := by
            rcases lt_or_le (start + (cs - ov)) words.length with hlt | hle
            · exact hlt
            · exfalso
              rw [hnil hle] at hc₂
              simp at hc₂
          have hc₂' : c₂ = (words.drop (start + (cs - ov))).take cs := by
            have hh := hhead hrestlt
            rw [hh] at hc₂
            exact (Option.mem_some_iff.mp hc₂).symm
          rw [hc₂']
          exact chunkRel_step words cs ov start h
        · rcases rest with _ | ⟨c₁, rest'⟩
          · have hsing : chunkRecon cs ov [(words.drop start).take cs] =
                (words.drop start).take cs := rfl
            rw [hsing]
            have hend : words.length ≤ start + (cs - ov) := by
              have h0 := hrecon
              simp [chunkRecon] at h0
              exact h0
            exact List.take_of_length_le (by simp [List.length_drop]; omega)
          · rw [chunkRecon_cons₂, hrecon]
            rw [List.take_take, min_eq_left (by omega : cs - ov ≤ cs)]
            rw [← List.drop_drop, List.take_append_drop]
      · have hle : words.length ≤ start := by omega
        refine ⟨[], ?_, fun _ => rfl, fun hlt => absurd hlt hs, by simp, ?_⟩
        · simp only [chunkGo]; rw [if_neg hs]
        · simp [chunkRecon, List.drop_eq_nil_of_le hle]

/-- C1: the claim says `chunk_text` with `overlap >= chunk_size` fails with an
`InvalidConfiguration` hard error.  The code has no such check: on the
two-word text `"a b"` with `chunk_size = overlap = 1` the loop never
terminates (for every fuel bound the loop is still running), and on the
empty text it returns a normal result `[]`; no error is ever raised. -/
theorem chunk_overlap_ge_size_no_error :
    (∀ fuel, chunk_text fuel "a b".toList 1 1 = none) ∧
    (∀ fuel, chunk_text fuel "".toList 1 1 = some []) := by
  constructor
  · intro fuel
    unfold chunk_text
    have hw : pySplit "a b".toList = [['a'], ['b']] := by decide
    rw [hw]
    exact chunkLoop_stuck _ (by decide) 1 fuel
  · intro fuel
    unfold chunk_text
    have hw : pySplit "".toList = [] := rfl
    rw [hw]
    cases fuel <;> simp [chunkLoop]

/-- C7 (amended): for `overlap < size`, `chunk_text` terminates (any fuel of
at least the word count suffices); every successive pair of chunks shares
exactly `overlap` trailing/leading words when the earlier chunk has full
size, while an earlier chunk already truncated by the end of the text
contains the later chunk entirely as a suffix (`ChunkRel`); the
concatenation of the non-overlapping word spans reconstructs the original
word sequence (`chunkRecon`); empty input yields the empty sequence; and
`chunk("a b c d e", 3, 1) = ["a b c", "c d e", "e"]`. -/
theorem chunk_text_amended :
    (chunk_text 10 "a b c d e".toList 3 1 =
      some ["a b c".toList, "c d e".toList, "e".toList]) ∧
    (∀ (text : List Char) (cs ov fuel : Nat), ov < cs →
      (pySplit text).length ≤ fuel →
      ∃ l, chunk_text fuel text cs ov = some (l.map joinSpace) ∧
        (pySplit text = [] → l = []) ∧
        List.Chain' (ChunkRel cs ov) l ∧
        chunkRecon cs ov l = pySplit text) := by
  constructor
  · decide
  · intro text cs ov fuel h hf
    have hfuel : (pySplit text).length ≤ 0 + fuel * (cs - ov) := by
      have h1 : fuel ≤ fuel * (cs - ov) :=
        Nat.le_mul_of_pos_right fuel (by omega)
      omega
    obtain ⟨l, hgo, hnil, _, hchain, hrecon⟩ :=
      chunkGo_spec (pySplit text) cs ov h fuel 0 hfuel
    refine ⟨l, ?_, ?_, hchain, ?_⟩
    · unfold chunk_text
      have hl := chunkLoop_eq_go (pySplit text) cs ov h.le fuel 0
      rw [Nat.cast_zero] at hl
      rw [hl, hgo]
      rfl
    · intro he
      apply hnil
      simp [he]
    · rw [hrecon, List.drop_zero]

/-- Witness for C7 (amended), at `chunk("a b c d e", 3, 1)` with fuel 5. -/
theorem chunk_text_amended_witness :
    ∃ l, chunk_text 5 "a b c d e".toList 3 1 = some (l.map joinSpace) ∧
      (pySplit "a b c d e".toList = [] → l = []) ∧
      List.Chain' (ChunkRel 3 1) l ∧
      chunkRecon 3 1 l = pySplit "a b c d e".toList :=
  chunk_text_amended.2 "a b c d e".toList 3 1 5 (by decide) (by decide)

/-- C7 counterexample: on the six-word text with `size = 5`, `overlap = 4`,
the successive chunks at positions 2 and 3 (`"c d e f"` and `"d e f"`)
share only 3 words, not `overlap = 4`, although the later one is not the
final chunk (the final chunk is `"f"` at position 5).  So the claim's
"every successive pair shares exactly `overlap` words, except possibly the
final chunk" is false as stated. -/
theorem chunk_text_counterexample :
    chunk_text 10 "a b c d e f".toList 5 4 =
      some ["a b c d e".toList, "b c d e f".toList, "c d e f".toList,
        "d e f".toList, "e f".toList, "f".toList] ∧
    chunkGo (pySplit "a b c d e f".toList) 5 4 10 0 =
      some [[['a'], ['b'], ['c'], ['d'], ['e']],
        [['b'], ['c'], ['d'], ['e'], ['f']],
        [['c'], ['d'], ['e'], ['f']],
        [['d'], ['e'], ['f']],
        [['e'], ['f']],
        [['f']]] ∧
    -- the pair at positions 2 and 3: the leading four words of chunk 3 are
    -- not the trailing four words of chunk 2 (chunk 3 has only three words),
    -- and position 3 is not the final position (5)
    (([['d'], ['e'], ['f']] : List (List Char)).take 4 ≠
        ([['c'], ['d'], ['e'], ['f']] : List (List Char)).drop (4 - 4)) ∧
    ¬ (4 ≤ ([['d'], ['e'], ['f']] : List (List Char)).length) ∧
    (3 : Nat) ≠ 6 - 1 := by decide

/-! Section: Markdown structural parser (utils/markdown_parser.py, default config)

Lines are matched against the six default patterns in insertion order
(`header`, `ordered_list`, `unordered_list`, `image`, `link`, `paragraph`),
first match wins, via `re.Pattern.match` (anchored at the start of the
line).  Each fixed pattern is modelled by a dedicated matcher computing
exactly the captured group the code uses. -/

/-- Python `str.lstrip()` (ASCII whitespace). -/
def lstripChars (l : List Char) : List Char := l.dropWhile isWsChar

/-- Python `str.rstrip()` (ASCII whitespace). -/
def rstripChars (l : List Char) : List Char :=
  (l.reverse.dropWhile isWsChar).reverse

/-- Python `str.strip()` (ASCII whitespace). -/
def stripChars (l : List Char) : List Char := lstripChars (rstripChars l)

/-- Python `re.match` for `^(#{1,6})\s+(.*)`: 1-6 leading `#`, then at least one
whitespace, group 2 is the rest after the maximal whitespace run (greedy
`\s+` followed by greedy `.*`).  Returns (level, group 2). -/
def headerMatch (l : List Char) : Option (Nat × List Char) :=
  let k := (l.takeWhile (fun c => c == '#')).length
  if 1 ≤ k ∧ k ≤ 6 then
    match l.drop k with
    | c :: _ => if isWsChar c then some (k, (l.drop k).dropWhile isWsChar)
                else none
    | [] => none
  else none

/-- Python `re.match` for `^(\d+\.)\s+(.*)`: leading digit run, `.`, at least one
whitespace; returns group 2 (the rest after the maximal whitespace run). -/
def orderedMatch (l : List Char) : Option (List Char) :=
  let d := (l.takeWhile (fun c => c.isDigit)).length
  if 1 ≤ d then
    match l.drop d with
    | '.' :: c :: _ => if isWsChar c then
        some ((l.drop (d + 1)).dropWhile isWsChar) else none
    | _ => none
  else none

/-- Python `re.match` for `^([-*+])\s+(.*)`: returns group 2. -/
def unorderedMatch (l : List Char) : Option (List Char) :=
  match l with
  | c :: c₂ :: _ =>
    if (c == '-' || c == '*' || c == '+') && isWsChar c₂ then
      some ((l.drop 1).dropWhile isWsChar)
    else none
  | _ => none

/-- The lazy `(.*?)\)` tail: the characters before the first `)`, or no
match if there is none. -/
def untilClose : List Char → Option (List Char)
  | [] => none
  | ')' :: _ => some []
  | c :: rest => (untilClose rest).map (fun g => c :: g)

/-- The lazy `.*?\]\((.*?)\)` tail: scan to the first `](`, then capture up
to the first following `)`.  (If no `)` follows the first `](`, no later
`](` can be completed either, so the whole match fails.) -/
def linkBody : List Char → Option (List Char)
  | [] => none
  | c :: rest =>
    if c = ']' ∧ rest.head? = some '(' then untilClose rest.tail
    else linkBody rest

/-- Python `re.match` for `!\[.*?\]\((.*?)\)` (anchored by `match`): the line must
start with `![`; returns group 1, the captured URL. -/
def imageMatch (l : List Char) : Option (List Char) :=
  if l.head? = some '!' ∧ l.tail.head? = some '[' then linkBody l.tail.tail
  else none

/-- Python `re.match` for `\[.*?\]\((.*?)\)` (anchored by `match`): the line must
start with `[`; returns group 1, the captured URL. -/
def linkMatch (l : List Char) : Option (List Char) :=
  if l.head? = some '[' then linkBody l.tail else none

/-- Python `re.match` for the default paragraph pattern
`^(?!#{1,6}\s|[-*+]\s|\d+\.\s|!\[.*?\]\(.*?\)|\[.*?\]\(.*?\)).+`: a
non-empty line whose start is matched by none of the five other patterns
(each negative-lookahead alternative succeeds exactly when the
corresponding full pattern matches at the start of the line). -/
def paragraphMatches (l : List Char) : Bool :=
  !l.isEmpty && (headerMatch l).isNone && (orderedMatch l).isNone &&
    (unorderedMatch l).isNone && (imageMatch l).isNone && (linkMatch l).isNone

/-- One parsed markdown element: `{"type": ..., "content": ..., "parent": ...}`. -/
structure MdElement where
  type : List Char
  content : List Char
  parent : Option (List Char)
deriving DecidableEq, Repr

/-- Python `f"header_level_{header_level}"`. -/
def headerTypeStr (level : Nat) : List Char :=
  "header_level_".toList ++ Nat.toDigits 10 level

/-- One iteration of the pattern loop of `_parse_markdown` (lines 112-176)
on an already-rstripped non-blank line: first match wins, in the insertion
order of the default pattern dict; an unmatched line defaults to a
paragraph.  Returns the element and the updated `current_parent`. -/
def classifyLine (l : List Char) (cp : Option (List Char)) :
    MdElement × Option (List Char) :=
  match headerMatch l with
  | some (lvl, txt) =>
      let htext := stripChars txt
      (⟨headerTypeStr lvl, htext, none⟩, some htext)
  | none =>
  match orderedMatch l with
  | some txt => (⟨"ordered_list".toList, stripChars txt, cp⟩, cp)
  | none =>
  match unorderedMatch l with
  | some txt => (⟨"unordered_list".toList, stripChars txt, cp⟩, cp)
  | none =>
  match imageMatch l with
  | some url => (⟨"image".toList, stripChars url, cp⟩, cp)
  | none =>
  match linkMatch l with
  | some url => (⟨"link".toList, stripChars url, cp⟩, cp)
  | none =>
  if paragraphMatches l then (⟨"paragraph".toList, stripChars l, cp⟩, cp)
  else -- unmatched default branch (lines 167-176): also a paragraph
    (⟨"paragraph".toList, stripChars l, cp⟩, cp)

/-- The line loop of `_parse_markdown` (lines 103-179): rstrip each line,
skip blank lines, classify the rest, threading `current_parent`. -/
def parseLines : List (List Char) → Option (List Char) → List MdElement
  | [], _ => []
  | line :: rest, cp =>
    let l := rstripChars line
    if (stripChars l).isEmpty then parseLines rest cp
    else
      let ec := classifyLine l cp
      ec.1 :: parseLines rest ec.2

/-- Python `MarkdownParser._parse_markdown` on `content` with the default
configuration: split on newlines, parse each line. -/
def parse_markdown (content : List Char) : List MdElement :=
  parseLines (content.splitOn '\n') none

/-- Python `summary[t] = summary.get(t, 0) + 1` on an insertion-ordered dict. -/
def bump : List (List Char × Nat) → List Char → List (List Char × Nat)
  | [], k => [(k, 1)]
  | (k', v) :: rest, k =>
    if k = k' then (k', v + 1) :: rest else (k', v) :: bump rest k

/-- Python `MarkdownParser.summarize_structure` (lines 181-193): occurrence counts
keyed by element type, insertion-ordered. -/
def summarize_structure (els : List MdElement) : List (List Char × Nat) :=
  els.foldl (fun acc e => bump acc e.type) []

/-- Dict lookup `d.get(k, default)`. -/
def assocGetD (l : List (List Char × Nat)) (k : List Char) (d : Nat) : Nat :=
  match l with
  | [] => d
  | (k', v) :: rest => if k = k' then v else assocGetD rest k d

/-- Dict lookup `d[k]` as an `Option` (`none` = `KeyError`). -/
def assocFind (l : List (List Char × Nat)) (k : List Char) : Option Nat :=
  match l with
  | [] => none
  | (k', v) :: rest => if k = k' then some v else assocFind rest k

/-- Python `MarkdownParser.extract_links` (lines 209-218). -/
def extract_links (els : List MdElement) : List (List Char) :=
  (els.filter (fun e => decide (e.type = "link".toList))).map
    (fun e => e.content)

/-- Python `MarkdownParser.extract_images` (lines 220-229). -/
def extract_images (els : List MdElement) : List (List Char) :=
  (els.filter (fun e => decide (e.type = "image".toList))).map
    (fun e => e.content)

/-- Python `elem["type"].startswith("header_level_")`. -/
def isHeaderType (t : List Char) : Bool :=
  "header_level_".toList.isPrefixOf t

/-- Python `int(header["type"].split("_")[-1])` (on the numeric strings produced
by the parser). -/
def levelOfType (t : List Char) : Nat :=
  ((t.splitOn '_').getLastD []).foldl
    (fun a c => a * 10 + (c.toNat - '0'.toNat)) 0

/-- Python `MarkdownParser._slugify` (lines 251-263): drop characters outside
`\w`, `\s`, `-` (ASCII), lowercase, then collapse whitespace runs to a
single hyphen. -/
def slugify (text : List Char) : List Char :=
  let kept := text.filter
    (fun c => c.isAlphanum || c == '_' || isWsChar c || c == '-')
  wsRunsToHyphen (kept.map Char.toLower)
where
  /-- Python `re.sub(r"\s+", "-", slug)`. -/
  wsRunsToHyphen : List Char → List Char
    | [] => []
    | c :: rest =>
      if isWsChar c then '-' :: wsRunsToHyphen (rest.dropWhile isWsChar)
      else c :: wsRunsToHyphen rest
  termination_by l => l.length
  decreasing_by
    · have := (List.dropWhile_suffix (l := rest) isWsChar).length_le
      simp only [List.length_cons]
      omega
    · simp only [List.length_cons]
      omega

/-- One table-of-contents entry (lines 242-246). -/
def tocEntry (h : MdElement) : List Char :=
  List.replicate (2 * (levelOfType h.type - 1)) ' ' ++
    "- [".toList ++ h.content ++ "](#".toList ++ slugify h.content ++
    ")".toList

/-- The `toc_lines` list of `MarkdownParser.generate_toc` (lines 231-249):
the title line followed by one entry per header element, in order. -/
def tocLines (els : List MdElement) : List (List Char) :=
  "## Table of Contents\n".toList ::
    (els.filter (fun e => isHeaderType e.type)).map tocEntry

/-- Python `MarkdownParser.generate_toc`: the joined table of contents. -/
def generate_toc (els : List MdElement) : List Char :=
  List.intercalate ['\n'] (tocLines els)

/-- The loop of `extract_plain_text_with_associations` (lines 288-326):
re-derives the `current_parent` state over the already parsed elements. -/
def plainAssoc : List MdElement → Option (List Char) → List MdElement
  | [], _ => []
  | e :: rest, cp =>
    if isHeaderType e.type then
      ⟨e.type, e.content, none⟩ :: plainAssoc rest (some e.content)
    else if e.type = "paragraph".toList ∨ e.type = "ordered_list".toList ∨
        e.type = "unordered_list".toList ∨ e.type = "blockquote".toList ∨
        e.type = "code".toList then
      ⟨e.type, e.content, cp⟩ :: plainAssoc rest cp
    else if e.type = "link".toList ∨ e.type = "image".toList then
      ⟨e.type, e.content, cp⟩ :: plainAssoc rest cp
    else
      plainAssoc rest cp

/-- Python `MarkdownParser.extract_plain_text_with_associations`. -/
def extract_plain_text_with_associations (els : List MdElement) :
    List MdElement :=
  plainAssoc els none

/-- Python `MarkdownParser.extract_plain_text` (lines 328-345): join the contents
of all associated elements that are not links or images. -/
def extract_plain_text (els : List MdElement) : List Char :=
  List.intercalate ['\n']
    (((extract_plain_text_with_associations els).filter
        (fun e => decide (¬ (e.type = "link".toList ∨
          e.type = "image".toList)))).map
      (fun e => e.content))

/-! Section: String-model lemmas -/

lemma dropWhile_head_false {p : Char → Bool} :
    ∀ (l : List Char) (c : Char) (t : List Char),
      l.dropWhile p = c :: t → p c = false := by
  intro l
  induction l with
  | nil => intro c t h; simp [List.dropWhile] at h
  | cons a l' ih =>
      intro c t h
      by_cases hp : p a
      · rw [List.dropWhile_cons_of_pos hp] at h
        exact ih c t h
      · rw [List.dropWhile_cons_of_neg hp] at h
        cases h
        simpa using hp

lemma rstrip_getLast? {x : List Char} {c : Char}
    (h : (rstripChars x).getLast? = some c) : isWsChar c = false := by
  unfold rstripChars at h
  rw [← List.head?_reverse, List.reverse_reverse] at h
  rcases he : x.reverse.dropWhile isWsChar with _ | ⟨a, t⟩
  · rw [he] at h; simp at h
  · rw [he] at h
    simp only [List.head?_cons, Option.some.injEq] at h
    rw [← h]
    exact dropWhile_head_false x.reverse a t he

lemma getLast?_of_suffix {t l : List Char} (hs : t <:+ l) {c : Char}
    (h : t.getLast? = some c) : l.getLast? = some c := by
  obtain ⟨pre, rfl⟩ := hs
  rw [← List.head?_reverse] at h ⊢
  rw [List.reverse_append]
  rcases ht : t.reverse with _ | ⟨a, r⟩
  · rw [ht] at h; simp at h
  · rw [ht] at h; simpa using h

lemma rstrip_eq_self {z : List Char}
    (h : ∀ c, z.getLast? = some c → isWsChar c = false) :
    rstripChars z = z := by
  unfold rstripChars
  rcases hz : z.reverse with _ | ⟨a, t⟩
  · simpa using congrArg List.reverse hz
  · have ha : z.getLast? = some a := by
      rw [← List.head?_reverse, hz]; rfl
    rw [List.dropWhile_cons_of_neg (by simp [h a ha]), ← hz,
      List.reverse_reverse]

lemma lstrip_eq_self {z : List Char}
    (h : ∀ c, z.head? = some c → isWsChar c = false) :
    lstripChars z = z := by
  cases z with
  | nil => rfl
  | cons a t =>
      have ha : isWsChar a = false := h a rfl
      show List.dropWhile isWsChar (a :: t) = a :: t
      exact List.dropWhile_cons_of_neg (by simp [ha])

lemma lstrip_suffix (z : List Char) : lstripChars z <:+ z :=
  List.dropWhile_suffix isWsChar

lemma lstrip_head_false {z : List Char} {c : Char}
    (h : (lstripChars z).head? = some c) : isWsChar c = false := by
  unfold lstripChars at h
  rcases he : z.dropWhile isWsChar with _ | ⟨a, t⟩
  · rw [he] at h; simp at h
  · rw [he] at h
    simp only [List.head?_cons, Option.some.injEq] at h
    rw [← h]
    exact dropWhile_head_false z a t he

lemma strip_getLast? {y : List Char} {c : Char}
    (h : (stripChars y).getLast? = some c) : isWsChar c = false := by
  unfold stripChars at h
  have hs : lstripChars (rstripChars y) <:+ rstripChars y :=
    lstrip_suffix (rstripChars y)
  exact rstrip_getLast? (getLast?_of_suffix hs h)

lemma strip_head_false {y : List Char} {c : Char}
    (h : (stripChars y).head? = some c) : isWsChar c = false :=
  lstrip_head_false h

lemma rstrip_strip (y : List Char) : rstripChars (stripChars y) = stripChars y := by
  apply rstrip_eq_self
  intro c hc
  exact strip_getLast? hc

lemma lstrip_strip (y : List Char) : lstripChars (stripChars y) = stripChars y := by
  apply lstrip_eq_self
  intro c hc
  exact strip_head_false hc

lemma strip_idem (y : List Char) : stripChars (stripChars y) = stripChars y := by
  unfold stripChars
  rw [show lstripChars (rstripChars y) = stripChars y from rfl, rstrip_strip,
    lstrip_strip]

/-- A non-empty whitespace-free-tail view: the trimmed form of a list whose
last character exists and is not whitespace is non-empty. -/
lemma strip_ne_nil_of_getLast? {y : List Char} {c : Char}
    (hl : y.getLast? = some c) (hc : isWsChar c = false) :
    stripChars y ≠ [] := by
  have hr : rstripChars y = y := by
    apply rstrip_eq_self
    intro d hd
    rw [hl] at hd
    cases hd
    exact hc
  unfold stripChars
  rw [hr]
  intro hnil
  unfold lstripChars at hnil
  rw [List.dropWhile_eq_nil_iff] at hnil
  have hmem : c ∈ y := by
    obtain ⟨hne, hcl⟩ := List.mem_getLast?_eq_getLast (x := c)
      (by rw [Option.mem_def]; exact hl)
    rw [hcl]
    exact List.getLast_mem hne
  have := hnil c hmem
  rw [hc] at this
  exact absurd this (by simp)

/-! Section: Parser structure lemmas -/

lemma isHeaderType_headerTypeStr (lvl : Nat) :
    isHeaderType (headerTypeStr lvl) = true := by
  unfold isHeaderType headerTypeStr
  rw [List.isPrefixOf_iff_prefix]
  exact List.prefix_append _ _

/-- Exhaustive description of `classifyLine`: exactly one of the six
first-match-wins branches applies. -/
lemma classifyLine_cases (l : List Char) (cp : Option (List Char)) :
    (∃ lvl txt, headerMatch l = some (lvl, txt) ∧
      classifyLine l cp =
        (⟨headerTypeStr lvl, stripChars txt, none⟩, some (stripChars txt))) ∨
    (headerMatch l = none ∧ ∃ txt, orderedMatch l = some txt ∧
      classifyLine l cp = (⟨"ordered_list".toList, stripChars txt, cp⟩, cp)) ∨
    (headerMatch l = none ∧ orderedMatch l = none ∧
      ∃ txt, unorderedMatch l = some txt ∧
      classifyLine l cp = (⟨"unordered_list".toList, stripChars txt, cp⟩, cp)) ∨
    (headerMatch l = none ∧ orderedMatch l = none ∧ unorderedMatch l = none ∧
      ∃ url, imageMatch l = some url ∧
      classifyLine l cp = (⟨"image".toList, stripChars url, cp⟩, cp)) ∨
    (headerMatch l = none ∧ orderedMatch l = none ∧ unorderedMatch l = none ∧
      imageMatch l = none ∧ ∃ url, linkMatch l = some url ∧
      classifyLine l cp = (⟨"link".toList, stripChars url, cp⟩, cp)) ∨
    (headerMatch l = none ∧ orderedMatch l = none ∧ unorderedMatch l = none ∧
      imageMatch l = none ∧ linkMatch l = none ∧
      classifyLine l cp = (⟨"paragraph".toList, stripChars l, cp⟩, cp)) := by
  unfold classifyLine
  rcases hh : headerMatch l with _ | ⟨lvl, txt⟩
  case some => exact Or.inl ⟨lvl, txt, rfl, rfl⟩
  rcases ho : orderedMatch l with _ | txt
  case some => exact Or.inr (Or.inl ⟨rfl, txt, rfl, rfl⟩)
  rcases hu : unorderedMatch l with _ | txt
  case some => exact Or.inr (Or.inr (Or.inl ⟨rfl, rfl, txt, rfl, rfl⟩))
  rcases hi : imageMatch l with _ | url
  case some => exact Or.inr (Or.inr (Or.inr (Or.inl ⟨rfl, rfl, rfl, url, rfl, rfl⟩)))
  rcases hk : linkMatch l with _ | url
  case some =>
    exact Or.inr (Or.inr (Or.inr (Or.inr (Or.inl ⟨rfl, rfl, rfl, rfl, url, rfl, rfl⟩))))
  refine Or.inr (Or.inr (Or.inr (Or.inr (Or.inr ⟨rfl, rfl, rfl, rfl, rfl, ?_⟩))))
  rw [ite_self]

/-- The single-scalar parent linkage invariant: given the incoming
`current_parent` value, every header element carries `parent = none` and
every non-header element carries as `parent` the content of the closest
header before it (the incoming value if none precedes it). -/
def parentLinkOk : Option (List Char) → List MdElement → Prop
  | _, [] => True
  | cp, e :: rest =>
    if isHeaderType e.type then
      e.parent = none ∧ parentLinkOk (some e.content) rest
    else
      e.parent = cp ∧ parentLinkOk cp rest

lemma parseLines_parentOk :
    ∀ (lines : List (List Char)) (cp : Option (List Char)),
      parentLinkOk cp (parseLines lines cp) := by
  intro lines
  induction lines with
  | nil => intro cp; trivial
  | cons line rest ih =>
      intro cp
      simp only [parseLines]
      by_cases hb : (stripChars (rstripChars line)).isEmpty
      · rw [if_pos hb]; exact ih cp
      · rw [if_neg hb]
        rcases classifyLine_cases (rstripChars line) cp with
          ⟨lvl, txt, _, hc⟩ | ⟨_, txt, _, hc⟩ | ⟨_, _, txt, _, hc⟩ |
          ⟨_, _, _, url, _, hc⟩ | ⟨_, _, _, _, url, _, hc⟩ |
          ⟨_, _, _, _, _, hc⟩ <;> rw [hc]
        · show parentLinkOk cp (⟨headerTypeStr lvl, stripChars txt, none⟩ ::
            parseLines rest (some (stripChars txt)))
          unfold parentLinkOk
          rw [if_pos (isHeaderType_headerTypeStr lvl)]
          exact ⟨rfl, ih (some (stripChars txt))⟩
        · show parentLinkOk cp (⟨"ordered_list".toList, stripChars txt, cp⟩ ::
            parseLines rest cp)
          unfold parentLinkOk
          rw [if_neg (show ¬ isHeaderType "ordered_list".toList = true by decide)]
          exact ⟨rfl, ih cp⟩
        · show parentLinkOk cp (⟨"unordered_list".toList, stripChars txt, cp⟩ ::
            parseLines rest cp)
          unfold parentLinkOk
          rw [if_neg (show ¬ isHeaderType "unordered_list".toList = true by decide)]
          exact ⟨rfl, ih cp⟩
        · show parentLinkOk cp (⟨"image".toList, stripChars url, cp⟩ ::
            parseLines rest cp)
          unfold parentLinkOk
          rw [if_neg (show ¬ isHeaderType "image".toList = true by decide)]
          exact ⟨rfl, ih cp⟩
        · show parentLinkOk cp (⟨"link".toList, stripChars url, cp⟩ ::
            parseLines rest cp)
          unfold parentLinkOk
          rw [if_neg (show ¬ isHeaderType "link".toList = true by decide)]
          exact ⟨rfl, ih cp⟩
        · show parentLinkOk cp
            (⟨"paragraph".toList, stripChars (rstripChars line), cp⟩ ::
              parseLines rest cp)
          unfold parentLinkOk
          rw [if_neg (show ¬ isHeaderType "paragraph".toList = true by decide)]
          exact ⟨rfl, ih cp⟩

/-- C8: every header element is emitted with `parent = none`, and
`current_parent` becomes the matched header text for all subsequent
non-header elements regardless of heading depth; the given scenario parses
to exactly the four claimed elements. -/
theorem parser_parent_linkage :
    parse_markdown "# Title\n\nSome text.\n\n- item one\n- item two\n".toList =
      [⟨"header_level_1".toList, "Title".toList, none⟩,
       ⟨"paragraph".toList, "Some text.".toList, some "Title".toList⟩,
       ⟨"unordered_list".toList, "item one".toList, some "Title".toList⟩,
       ⟨"unordered_list".toList, "item two".toList, some "Title".toList⟩] ∧
    ∀ content : List Char, parentLinkOk none (parse_markdown content) := by
  constructor
  · decide
  · intro content
    exact parseLines_parentOk _ none

lemma mem_of_getLast?Chars {l : List Char} {c : Char}
    (h : l.getLast? = some c) : c ∈ l := by
  obtain ⟨hne, hcl⟩ := List.mem_getLast?_eq_getLast (x := c)
    (by rw [Option.mem_def]; exact h)
  rw [hcl]
  exact List.getLast_mem hne

/-- The text captured after a marker and a whitespace run on an rstripped
line is non-blank: the line's last character survives into it. -/
lemma strip_dropWhile_drop_ne_nil (x : List Char) (k : Nat)
    (hne : (rstripChars x).drop k ≠ []) :
    stripChars (((rstripChars x).drop k).dropWhile isWsChar) ≠ [] := by
  obtain ⟨c, hc⟩ := Option.ne_none_iff_exists'.mp
    (fun hn => hne (by rwa [← List.getLast?_eq_none_iff]))
  have hcl : (rstripChars x).getLast? = some c :=
    getLast?_of_suffix (List.drop_suffix k (rstripChars x)) hc
  have hcw : isWsChar c = false := rstrip_getLast? hcl
  have htne : ((rstripChars x).drop k).dropWhile isWsChar ≠ [] := by
    intro hnil
    rw [List.dropWhile_eq_nil_iff] at hnil
    have := hnil c (mem_of_getLast?Chars hc)
    rw [hcw] at this
    exact absurd this (by simp)
  obtain ⟨d, hd⟩ := Option.ne_none_iff_exists'.mp
    (fun hn => htne (by rwa [← List.getLast?_eq_none_iff]))
  have hdc : d = c := by
    have := getLast?_of_suffix
      (List.dropWhile_suffix (l := (rstripChars x).drop k) isWsChar) hd
    rw [this] at hc
    exact (Option.some.injEq _ _ ▸ hc :)
  exact strip_ne_nil_of_getLast? hd (hdc ▸ hcw)

/-- Inversion for `headerMatch`. -/
lemma headerMatch_some {l : List Char} {lvl : Nat} {txt : List Char}
    (h : headerMatch l = some (lvl, txt)) :
    txt = (l.drop lvl).dropWhile isWsChar ∧ l.drop lvl ≠ [] ∧
      1 ≤ lvl ∧ lvl ≤ 6 := by
  unfold headerMatch at h
  dsimp only at h
  split at h
  case isTrue hk =>
    split at h
    case h_1 c t heq =>
      split at h
      case isTrue hw =>
        simp only [Option.some.injEq, Prod.mk.injEq] at h
        obtain ⟨h1, h2⟩ := h
        subst h1
        exact ⟨h2.symm, by rw [heq]; simp, hk.1, hk.2⟩
      case isFalse => exact absurd h (by simp)
    case h_2 => exact absurd h (by simp)
  case isFalse => exact absurd h (by simp)

/-- Inversion for `orderedMatch`. -/
lemma orderedMatch_some {l : List Char} {txt : List Char}
    (h : orderedMatch l = some txt) :
    ∃ d, 1 ≤ d ∧ txt = (l.drop (d + 1)).dropWhile isWsChar ∧
      l.drop (d + 1) ≠ [] := by
  unfold orderedMatch at h
  dsimp only at h
  split at h
  case isTrue hd =>
    split at h
    case h_1 c t heq =>
      split at h
      case isTrue hw =>
        simp only [Option.some.injEq] at h
        refine ⟨(l.takeWhile (fun c => c.isDigit)).length, hd, h.symm, ?_⟩
        have : l.drop ((l.takeWhile (fun c => c.isDigit)).length + 1) =
            c :: t := by
          rw [← List.drop_drop, heq]
          rfl
        rw [this]
        simp
      case isFalse => exact absurd h (by simp)
    case h_2 => exact absurd h (by simp)
  case isFalse => exact absurd h (by simp)

/-- Inversion for `unorderedMatch`. -/
lemma unorderedMatch_some {l : List Char} {txt : List Char}
    (h : unorderedMatch l = some txt) :
    txt = (l.drop 1).dropWhile isWsChar ∧ l.drop 1 ≠ [] := by
  unfold unorderedMatch at h
  split at h
  case h_1 c c₂ t =>
    split at h
    case isTrue hw =>
      simp only [Option.some.injEq] at h
      exact ⟨h.symm, by simp⟩
    case isFalse => exact absurd h (by simp)
  case h_2 => exact absurd h (by simp)

/-- The non-blank-content invariant over the line loop. -/
lemma parseLines_content_ne_nil :
    ∀ (lines : List (List Char)) (cp : Option (List Char)),
      ∀ e ∈ parseLines lines cp,
        e.type ≠ "image".toList → e.type ≠ "link".toList →
        stripChars e.content ≠ [] := by
  intro lines
  induction lines with
  | nil => intro cp e he; simp [parseLines] at he
  | cons line rest ih =>
      intro cp e he hni hnl
      simp only [parseLines] at he
      by_cases hb : (stripChars (rstripChars line)).isEmpty
      · rw [if_pos hb] at he
        exact ih cp e he hni hnl
      · rw [if_neg hb] at he
        rcases classifyLine_cases (rstripChars line) cp with
          ⟨lvl, txt, hm, hc⟩ | ⟨_, txt, hm, hc⟩ | ⟨_, _, txt, hm, hc⟩ |
          ⟨_, _, _, url, hm, hc⟩ | ⟨_, _, _, _, url, hm, hc⟩ |
          ⟨_, _, _, _, _, hc⟩ <;> rw [hc] at he <;>
          rcases List.mem_cons.mp he with hhd | htl
        · subst hhd
          obtain ⟨htxt, hne, _, _⟩ := headerMatch_some hm
          show stripChars (stripChars txt) ≠ []
          rw [strip_idem, htxt]
          exact strip_dropWhile_drop_ne_nil line lvl hne
        · exact ih _ e htl hni hnl
        · subst hhd
          obtain ⟨d, _, htxt, hne⟩ := orderedMatch_some hm
          show stripChars (stripChars txt) ≠ []
          rw [strip_idem, htxt]
          exact strip_dropWhile_drop_ne_nil line (d + 1) hne
        · exact ih _ e htl hni hnl
        · subst hhd
          obtain ⟨htxt, hne⟩ := unorderedMatch_some hm
          show stripChars (stripChars txt) ≠ []
          rw [strip_idem, htxt]
          exact strip_dropWhile_drop_ne_nil line 1 hne
        · exact ih _ e htl hni hnl
        · subst hhd
          exact absurd rfl hni
        · exact ih _ e htl hni hnl
        · subst hhd
          exact absurd rfl hnl
        · exact ih _ e htl hni hnl
        · subst hhd
          show stripChars (stripChars (rstripChars line)) ≠ []
          rw [strip_idem]
          intro hnil
          rw [hnil] at hb
          exact hb (by simp)
        · exact ih _ e htl hni hnl

/-- C3 counterexample: the input line `![a]()` is classified as an image
whose captured URL group is empty, so the parser emits an element with
empty content — the claimed invariant "no classification branch ever
produces an element whose content is the empty string" is false. -/
theorem parser_blank_content_counterexample :
    parse_markdown "![a]()".toList = [⟨"image".toList, [], none⟩] ∧
    (parse_markdown "![a]()".toList).any
      (fun e => (stripChars e.content).isEmpty) = true := by decide

/-- C3 (amended): blank source lines are dropped before classification,
and every element produced by a header, list, or paragraph branch
(matched or unmatched default) has non-empty content after trimming;
only the image and link branches can produce empty content (an empty
captured URL). -/
theorem parser_content_nonblank_amended :
    ∀ (content : List Char), ∀ e ∈ parse_markdown content,
      e.type ≠ "image".toList → e.type ≠ "link".toList →
      stripChars e.content ≠ [] := by
  intro content
  exact parseLines_content_ne_nil _ none

/-- Witness for C3 (amended) at the one-paragraph input `hi`. -/
theorem parser_content_nonblank_amended_witness :
    stripChars (MdElement.mk "paragraph".toList "hi".toList none).content ≠ [] :=
  parser_content_nonblank_amended "hi".toList
    ⟨"paragraph".toList, "hi".toList, none⟩ (by decide) (by decide) (by decide)

/-! Section: Analytics counting lemmas (C9) -/

lemma assocGetD_bump (l : List (List Char × Nat)) (k k' : List Char) :
    assocGetD (bump l k') k 0 =
      assocGetD l k 0 + (if k = k' then 1 else 0) := by
  induction l with
  | nil =>
      by_cases h : k = k' <;> simp [bump, assocGetD, h]
  | cons a rest ih =>
      obtain ⟨a₁, v⟩ := a
      show assocGetD (if k' = a₁ then (a₁, v + 1) :: rest
        else (a₁, v) :: bump rest k') k 0 = _
      by_cases h1 : k' = a₁
      · subst h1
        by_cases h2 : k = k' <;> simp [assocGetD, h2]
      · rw [if_neg h1]
        by_cases h2 : k = a₁
        · subst h2
          have hkk : ¬ k = k' := fun he => h1 he.symm
          simp [assocGetD, hkk]
        · simp only [assocGetD, if_neg h2, ih]

lemma assocFind_bump (l : List (List Char × Nat)) (k k' : List Char) :
    assocFind (bump l k') k =
      if k = k' then some (assocGetD l k 0 + 1) else assocFind l k := by
  induction l with
  | nil =>
      by_cases h : k = k' <;> simp [bump, assocFind, assocGetD, h]
  | cons a rest ih =>
      obtain ⟨a₁, v⟩ := a
      show assocFind (if k' = a₁ then (a₁, v + 1) :: rest
        else (a₁, v) :: bump rest k') k = _
      by_cases h1 : k' = a₁
      · subst h1
        by_cases h2 : k = k' <;> simp [assocFind, assocGetD, h2]
      · rw [if_neg h1]
        by_cases h2 : k = a₁
        · subst h2
          have hkk : ¬ k = k' := fun he => h1 he.symm
          simp [assocFind, assocGetD, hkk]
        · simp only [assocFind, if_neg h2, ih, assocGetD]

lemma summarize_getD (els : List MdElement) (k : List Char) :
    ∀ acc, assocGetD (els.foldl (fun a e => bump a e.type) acc) k 0 =
      assocGetD acc k 0 + els.countP (fun e => decide (e.type = k)) := by
  induction els with
  | nil => intro acc; simp
  | cons e rest ih =>
      intro acc
      rw [List.foldl_cons, ih (bump acc e.type), assocGetD_bump,
        List.countP_cons]
      by_cases h : e.type = k
      · simp [h]
        omega
      · have hk : ¬ k = e.type := fun he => h he.symm
        simp [h, hk]

lemma summarize_find (els : List MdElement) (k : List Char) :
    ∀ acc, assocFind (els.foldl (fun a e => bump a e.type) acc) k =
      if 0 < els.countP (fun e => decide (e.type = k)) then
        some (assocGetD acc k 0 + els.countP (fun e => decide (e.type = k)))
      else assocFind acc k := by
  induction els with
  | nil => intro acc; simp
  | cons e rest ih =>
      intro acc
      rw [List.foldl_cons, ih (bump acc e.type), assocFind_bump,
        assocGetD_bump, List.countP_cons]
      by_cases h : e.type = k
      · subst h
        have h1 : (if e.type = e.type then 1 else 0) = 1 := if_pos rfl
        have h2 : decide (e.type = e.type) = true := decide_eq_true rfl
        rw [h1, h2]
        have h3 : (if (true : Bool) = true then 1 else 0) = 1 := if_pos rfl
        rw [h3]
        rw [if_pos (Nat.succ_pos (rest.countP
          (fun e' => decide (e'.type = e.type))))]
        by_cases hr : 0 < rest.countP (fun e' => decide (e'.type = e.type))
        · rw [if_pos hr]
          congr 1
          omega
        · rw [if_neg hr]
          have h0 : rest.countP (fun e' => decide (e'.type = e.type)) = 0 := by
            omega
          rw [h0, if_pos rfl]
      · have hk : ¬ k = e.type := fun he => h he.symm
        have h2 : decide (e.type = k) = false := decide_eq_false h
        rw [h2]
        have h3 : (if (false : Bool) = true then 1 else 0) = 0 :=
          if_neg (by simp)
        rw [h3]
        have h1 : (if k = e.type then 1 else 0) = 0 := if_neg hk
        rw [h1]
        have h4 : (if k = e.type then some (assocGetD acc k 0 + 1)
            else assocFind acc k) = assocFind acc k := if_neg hk
        rw [h4, Nat.add_zero, Nat.add_zero]

lemma extract_links_length (els : List MdElement) :
    (extract_links els).length =
      els.countP (fun e => decide (e.type = "link".toList)) := by
  unfold extract_links
  rw [List.length_map, ← List.countP_eq_length_filter]

lemma extract_images_length (els : List MdElement) :
    (extract_images els).length =
      els.countP (fun e => decide (e.type = "image".toList)) := by
  unfold extract_images
  rw [List.length_map, ← List.countP_eq_length_filter]

/-- C9: the table of contents has exactly one entry per header element, in
document order (entry `i` of the tail of `toc_lines` is the rendered form
of the `i`-th header element), and the link/image counts of
`summarize_structure` agree with the lengths of `extract_links` /
`extract_images`: the count under the dict's own `get(type, 0)` convention
equals the extracted-list length, and whenever at least one link/image was
parsed the key is present and bound to exactly that length. -/
theorem analytics_consistency :
    ∀ content : List Char,
      (((tocLines (parse_markdown content)).drop 1).length =
        ((parse_markdown content).filter
          (fun e => isHeaderType e.type)).length ∧
       ∀ i, ((tocLines (parse_markdown content)).drop 1).get? i =
        (((parse_markdown content).filter
          (fun e => isHeaderType e.type)).get? i).map tocEntry) ∧
      (assocGetD (summarize_structure (parse_markdown content))
          "link".toList 0 =
        (extract_links (parse_markdown content)).length ∧
       assocGetD (summarize_structure (parse_markdown content))
          "image".toList 0 =
        (extract_images (parse_markdown content)).length) ∧
      (extract_links (parse_markdown content) ≠ [] →
        assocFind (summarize_structure (parse_markdown content))
          "link".toList =
          some (extract_links (parse_markdown content)).length) ∧
      (extract_images (parse_markdown content) ≠ [] →
        assocFind (summarize_structure (parse_markdown content))
          "image".toList =
          some (extract_images (parse_markdown content)).length) := by
  intro content
  set els := parse_markdown content with hels
  refine ⟨⟨?_, ?_⟩, ⟨?_, ?_⟩, ?_, ?_⟩
  · simp [tocLines]
  · intro i
    simp [tocLines, List.get?_map]
  · rw [summarize_structure, summarize_getD, extract_links_length]
    simp [assocGetD]
  · rw [summarize_structure, summarize_getD, extract_images_length]
    simp [assocGetD]
  · intro hne
    have hpos : 0 < els.countP (fun e => decide (e.type = "link".toList)) := by
      rw [← extract_links_length]
      rcases he : extract_links els with _ | ⟨a, t⟩
      · exact absurd he hne
      · simp
    rw [summarize_structure, summarize_find, if_pos hpos,
      extract_links_length]
    simp [assocGetD]
  · intro hne
    have hpos : 0 < els.countP (fun e => decide (e.type = "image".toList)) := by
      rw [← extract_images_length]
      rcases he : extract_images els with _ | ⟨a, t⟩
      · exact absurd he hne
      · simp
    rw [summarize_structure, summarize_find, if_pos hpos,
      extract_images_length]
    simp [assocGetD]

/-- Witness for C9 at a two-link, one-image, one-header document. -/
theorem analytics_consistency_witness :
    assocFind (summarize_structure
        (parse_markdown "# T\n[a](u)\n[b](v)\n![c](w)".toList))
      "link".toList =
      some (extract_links
        (parse_markdown "# T\n[a](u)\n[b](v)\n![c](w)".toList)).length :=
  ((analytics_consistency "# T\n[a](u)\n[b](v)\n![c](w)".toList).2.2.1)
    (by decide)

/-! Section: Anchored matching (C10) -/

lemma headerTypeStr_head (lvl : Nat) :
    (headerTypeStr lvl).head? = some 'h' := rfl

lemma headerTypeStr_ne_of_head {s : List Char} (hs : s.head? ≠ some 'h')
    (lvl : Nat) : headerTypeStr lvl ≠ s := by
  intro he
  exact hs (he ▸ headerTypeStr_head lvl)

/-- Every link element originates from a line whose (rstripped) text is
matched by the link pattern at position 0; its content is the stripped
captured group. -/
lemma parseLines_link_src :
    ∀ (lines : List (List Char)) (cp : Option (List Char)) e,
      e ∈ parseLines lines cp → e.type = "link".toList →
      ∃ line ∈ lines, ∃ u, linkMatch (rstripChars line) = some u ∧
        e.content = stripChars u := by
  intro lines
  induction lines with
  | nil => intro cp e he _; simp [parseLines] at he
  | cons line rest ih =>
      intro cp e he ht
      simp only [parseLines] at he
      by_cases hb : (stripChars (rstripChars line)).isEmpty
      · rw [if_pos hb] at he
        obtain ⟨l', hl', hu⟩ := ih cp e he ht
        exact ⟨l', List.mem_cons_of_mem _ hl', hu⟩
      · rw [if_neg hb] at he
        rcases classifyLine_cases (rstripChars line) cp with
          ⟨lvl, txt, hm, hc⟩ | ⟨_, txt, hm, hc⟩ | ⟨_, _, txt, hm, hc⟩ |
          ⟨_, _, _, url, hm, hc⟩ | ⟨_, _, _, _, url, hm, hc⟩ |
          ⟨_, _, _, _, _, hc⟩ <;> rw [hc] at he <;>
          rcases List.mem_cons.mp he with hhd | htl
        · subst hhd
          exact absurd ht (headerTypeStr_ne_of_head (by decide) lvl)
        · obtain ⟨l', hl', hu⟩ := ih _ e htl ht
          exact ⟨l', List.mem_cons_of_mem _ hl', hu⟩
        · subst hhd
          exact absurd ht (show "ordered_list".toList ≠ "link".toList by decide)
        · obtain ⟨l', hl', hu⟩ := ih _ e htl ht
          exact ⟨l', List.mem_cons_of_mem _ hl', hu⟩
        · subst hhd
          exact absurd ht (show "unordered_list".toList ≠ "link".toList by decide)
        · obtain ⟨l', hl', hu⟩ := ih _ e htl ht
          exact ⟨l', List.mem_cons_of_mem _ hl', hu⟩
        · subst hhd
          exact absurd ht (show "image".toList ≠ "link".toList by decide)
        · obtain ⟨l', hl', hu⟩ := ih _ e htl ht
          exact ⟨l', List.mem_cons_of_mem _ hl', hu⟩
        · subst hhd
          exact ⟨line, List.mem_cons_self line rest, url, hm, rfl⟩
        · obtain ⟨l', hl', hu⟩ := ih _ e htl ht
          exact ⟨l', List.mem_cons_of_mem _ hl', hu⟩
        · subst hhd
          exact absurd ht (show "paragraph".toList ≠ "link".toList by decide)
        · obtain ⟨l', hl', hu⟩ := ih _ e htl ht
          exact ⟨l', List.mem_cons_of_mem _ hl', hu⟩

/-- Every image element originates from a line whose (rstripped) text is
matched by the image pattern at position 0. -/
lemma parseLines_image_src :
    ∀ (lines : List (List Char)) (cp : Option (List Char)) e,
      e ∈ parseLines lines cp → e.type = "image".toList →
      ∃ line ∈ lines, ∃ u, imageMatch (rstripChars line) = some u ∧
        e.content = stripChars u := by
  intro lines
  induction lines with
  | nil => intro cp e he _; simp [parseLines] at he
  | cons line rest ih =>
      intro cp e he ht
      simp only [parseLines] at he
      by_cases hb : (stripChars (rstripChars line)).isEmpty
      · rw [if_pos hb] at he
        obtain ⟨l', hl', hu⟩ := ih cp e he ht
        exact ⟨l', List.mem_cons_of_mem _ hl', hu⟩
      · rw [if_neg hb] at he
        rcases classifyLine_cases (rstripChars line) cp with
          ⟨lvl, txt, hm, hc⟩ | ⟨_, txt, hm, hc⟩ | ⟨_, _, txt, hm, hc⟩ |
          ⟨_, _, _, url, hm, hc⟩ | ⟨_, _, _, _, url, hm, hc⟩ |
          ⟨_, _, _, _, _, hc⟩ <;> rw [hc] at he <;>
          rcases List.mem_cons.mp he with hhd | htl
        · subst hhd
          exact absurd ht (headerTypeStr_ne_of_head (by decide) lvl)
        · obtain ⟨l', hl', hu⟩ := ih _ e htl ht
          exact ⟨l', List.mem_cons_of_mem _ hl', hu⟩
        · subst hhd
          exact absurd ht (show "ordered_list".toList ≠ "image".toList by decide)
        · obtain ⟨l', hl', hu⟩ := ih _ e htl ht
          exact ⟨l', List.mem_cons_of_mem _ hl', hu⟩
        · subst hhd
          exact absurd ht (show "unordered_list".toList ≠ "image".toList by decide)
        · obtain ⟨l', hl', hu⟩ := ih _ e htl ht
          exact ⟨l', List.mem_cons_of_mem _ hl', hu⟩
        · subst hhd
          exact ⟨line, List.mem_cons_self line rest, url, hm, rfl⟩
        · obtain ⟨l', hl', hu⟩ := ih _ e htl ht
          exact ⟨l', List.mem_cons_of_mem _ hl', hu⟩
        · subst hhd
          exact absurd ht (show "link".toList ≠ "image".toList by decide)
        · obtain ⟨l', hl', hu⟩ := ih _ e htl ht
          exact ⟨l', List.mem_cons_of_mem _ hl', hu⟩
        · subst hhd
          exact absurd ht (show "paragraph".toList ≠ "image".toList by decide)
        · obtain ⟨l', hl', hu⟩ := ih _ e htl ht
          exact ⟨l', List.mem_cons_of_mem _ hl', hu⟩

/-- C10 counterexample: the line `1. see [a](b)` contains link syntax that
does not start the line, and it is classified as an ordered-list item, not
as "a paragraph containing the whole line" as the claim states. -/
theorem anchored_matching_counterexample :
    parse_markdown "1. see [a](b)".toList =
      [⟨"ordered_list".toList, "see [a](b)".toList, none⟩] ∧
    ¬ ("ordered_list".toList = "paragraph".toList) ∧
    ¬ ("ordered_list".toList = "link".toList) := by decide

/-- C10 (amended): because each pattern is matched anchored at the start of
the line, a line not starting with image/link syntax never yields an
image/link element — it is classified by the other start-anchored rules
(header/list) when they match, and otherwise becomes a paragraph holding
the whole stripped line; consequently `extract_links`/`extract_images`
return only URLs captured from lines that start with the link/image
syntax. -/
theorem anchored_matching_amended :
    (∀ (l : List Char) (cp : Option (List Char)),
       imageMatch l = none → linkMatch l = none →
       (classifyLine l cp).1.type ≠ "image".toList ∧
       (classifyLine l cp).1.type ≠ "link".toList) ∧
    (∀ (l : List Char) (cp : Option (List Char)),
       imageMatch l = none → linkMatch l = none → headerMatch l = none →
       orderedMatch l = none → unorderedMatch l = none →
       classifyLine l cp = (⟨"paragraph".toList, stripChars l, cp⟩, cp)) ∧
    (∀ (content : List Char), ∀ url ∈ extract_links (parse_markdown content),
       ∃ line ∈ content.splitOn '\n', ∃ u,
         linkMatch (rstripChars line) = some u ∧ url = stripChars u) ∧
    (∀ (content : List Char), ∀ url ∈ extract_images (parse_markdown content),
       ∃ line ∈ content.splitOn '\n', ∃ u,
         imageMatch (rstripChars line) = some u ∧ url = stripChars u) := by
  refine ⟨?_, ?_, ?_, ?_⟩
  · intro l cp hi hk
    rcases classifyLine_cases l cp with
      ⟨lvl, txt, hm, hc⟩ | ⟨_, txt, hm, hc⟩ | ⟨_, _, txt, hm, hc⟩ |
      ⟨_, _, _, url, hm, hc⟩ | ⟨_, _, _, _, url, hm, hc⟩ |
      ⟨_, _, _, _, _, hc⟩ <;> rw [hc]
    · exact ⟨headerTypeStr_ne_of_head (by decide) lvl,
        headerTypeStr_ne_of_head (by decide) lvl⟩
    · exact ⟨show "ordered_list".toList ≠ "image".toList by decide,
        show "ordered_list".toList ≠ "link".toList by decide⟩
    · exact ⟨show "unordered_list".toList ≠ "image".toList by decide,
        show "unordered_list".toList ≠ "link".toList by decide⟩
    · rw [hi] at hm; exact absurd hm (by simp)
    · rw [hk] at hm; exact absurd hm (by simp)
    · exact ⟨show "paragraph".toList ≠ "image".toList by decide,
        show "paragraph".toList ≠ "link".toList by decide⟩
  · intro l cp hi hk hh ho hu
    rcases classifyLine_cases l cp with
      ⟨lvl, txt, hm, hc⟩ | ⟨_, txt, hm, hc⟩ | ⟨_, _, txt, hm, hc⟩ |
      ⟨_, _, _, url, hm, hc⟩ | ⟨_, _, _, _, url, hm, hc⟩ |
      ⟨_, _, _, _, _, hc⟩
    · rw [hh] at hm; exact absurd hm (by simp)
    · rw [ho] at hm; exact absurd hm (by simp)
    · rw [hu] at hm; exact absurd hm (by simp)
    · rw [hi] at hm; exact absurd hm (by simp)
    · rw [hk] at hm; exact absurd hm (by simp)
    · exact hc
  · intro content url hmem
    simp only [extract_links, List.mem_map, List.mem_filter,
      decide_eq_true_eq] at hmem
    obtain ⟨e, ⟨hin, htp⟩, hct⟩ := hmem
    obtain ⟨line, hline, u, hu, hcu⟩ := parseLines_link_src _ none e hin htp
    exact ⟨line, hline, u, hu, by rw [← hct, hcu]⟩
  · intro content url hmem
    simp only [extract_images, List.mem_map, List.mem_filter,
      decide_eq_true_eq] at hmem
    obtain ⟨e, ⟨hin, htp⟩, hct⟩ := hmem
    obtain ⟨line, hline, u, hu, hcu⟩ := parseLines_image_src _ none e hin htp
    exact ⟨line, hline, u, hu, by rw [← hct, hcu]⟩

/-- Witness for C10 (amended): the line `\x20[a](b)` (leading space, so the
link syntax does not start the line) is classified as a paragraph holding
the whole stripped line. -/
theorem anchored_matching_amended_witness :
    classifyLine " [a](b)".toList none =
      (⟨"paragraph".toList, stripChars " [a](b)".toList, none⟩, none) :=
  anchored_matching_amended.2.1 " [a](b)".toList none (by decide) (by decide)
    (by decide) (by decide) (by decide)

/-! Section: Plain-text projection and reparsing (C4) -/

lemma splitOn_mem_no_sep {x : Char} :
    ∀ (l : List Char), ∀ p ∈ l.splitOn x, x ∉ p := by
  intro l
  induction l with
  | nil =>
      intro p hp
      rw [List.splitOn_nil] at hp
      simp only [List.mem_singleton] at hp
      subst hp
      simp
  | cons c rest ih =>
      intro p hp
      have hc : (c :: rest).splitOn x =
          if c = x then [] :: rest.splitOn x
          else (rest.splitOn x).modifyHead (c :: ·) := by
        show (c :: rest).splitOnP (· == x) = _
        rw [List.splitOnP_cons]
        by_cases h : c = x
        · rw [if_pos (by simp [h]), if_pos h]; rfl
        · rw [if_neg (by simp [h]), if_neg h]; rfl
      rw [hc] at hp
      by_cases h : c = x
      · rw [if_pos h] at hp
        rcases List.mem_cons.mp hp with h0 | h0
        · subst h0; simp
        · exact ih p h0
      · rw [if_neg h] at hp
        rcases hq : rest.splitOn x with _ | ⟨q, qs⟩
        · exact absurd hq (List.splitOnP_ne_nil _ rest)
        · rw [hq] at hp
          simp only [List.modifyHead] at hp
          rcases List.mem_cons.mp hp with h0 | h0
          · subst h0
            intro hmem
            rcases List.mem_cons.mp hmem with h1 | h1
            · exact h h1.symm
            · exact ih q (by rw [hq]; exact List.mem_cons_self q qs) h1
          · exact ih p (by rw [hq]; exact List.mem_cons_of_mem q h0)

lemma plainAssoc_mem :
    ∀ (els : List MdElement) (cp : Option (List Char)) e',
      e' ∈ plainAssoc els cp →
      ∃ e ∈ els, e'.type = e.type ∧ e'.content = e.content := by
  intro els
  induction els with
  | nil => intro cp e' h; simp [plainAssoc] at h
  | cons e rest ih =>
      intro cp e' h
      unfold plainAssoc at h
      split at h
      · rcases List.mem_cons.mp h with h0 | h0
        · subst h0; exact ⟨e, List.mem_cons_self e rest, rfl, rfl⟩
        · obtain ⟨e₀, h₀, hh⟩ := ih _ e' h0
          exact ⟨e₀, List.mem_cons_of_mem e h₀, hh⟩
      · split at h
        · rcases List.mem_cons.mp h with h0 | h0
          · subst h0; exact ⟨e, List.mem_cons_self e rest, rfl, rfl⟩
          · obtain ⟨e₀, h₀, hh⟩ := ih _ e' h0
            exact ⟨e₀, List.mem_cons_of_mem e h₀, hh⟩
        · split at h
          · rcases List.mem_cons.mp h with h0 | h0
            · subst h0; exact ⟨e, List.mem_cons_self e rest, rfl, rfl⟩
            · obtain ⟨e₀, h₀, hh⟩ := ih _ e' h0
              exact ⟨e₀, List.mem_cons_of_mem e h₀, hh⟩
          · obtain ⟨e₀, h₀, hh⟩ := ih _ e' h
            exact ⟨e₀, List.mem_cons_of_mem e h₀, hh⟩

lemma rstrip_sublist (y : List Char) : List.Sublist (rstripChars y) y := by
  unfold rstripChars
  have h := (List.dropWhile_suffix (l := y.reverse) isWsChar).sublist
  have h2 := h.reverse
  rwa [List.reverse_reverse] at h2

lemma lstrip_sublist (y : List Char) : List.Sublist (lstripChars y) y :=
  (List.dropWhile_suffix isWsChar).sublist

lemma strip_sublist (y : List Char) : List.Sublist (stripChars y) y :=
  (lstrip_sublist (rstripChars y)).trans (rstrip_sublist y)

lemma untilClose_sub : ∀ (g u : List Char), untilClose g = some u →
    List.Sublist u g := by
  intro g
  induction g with
  | nil => intro u h; simp [untilClose] at h
  | cons c rest ih =>
      intro u h
      unfold untilClose at h
      split at h
      · exact absurd h (by simp)
      · simp only [Option.some.injEq] at h
        subst h
        exact List.nil_sublist _
      · rename_i c' rest' hne heq
        obtain ⟨rfl, rfl⟩ : c' = c ∧ rest' = rest := by
          injection heq.symm with h1 h2; exact ⟨h1, h2⟩
        rcases Option.map_eq_some'.mp h with ⟨u', hu', hbu⟩
        rw [← hbu]
        exact List.Sublist.cons₂ _ (ih u' hu')

lemma linkBody_sub : ∀ (g u : List Char), linkBody g = some u →
    List.Sublist u g := by
  intro g
  induction g with
  | nil => intro u h; simp [linkBody] at h
  | cons c rest ih =>
      intro u h
      unfold linkBody at h
      by_cases hc : c = ']' ∧ rest.head? = some '('
      · rw [if_pos hc] at h
        exact List.Sublist.cons _
          ((untilClose_sub _ u h).trans (List.tail_sublist rest))
      · rw [if_neg hc] at h
        exact List.Sublist.cons _ (ih u h)

lemma imageMatch_sub {l u : List Char} (h : imageMatch l = some u) :
    List.Sublist u l := by
  unfold imageMatch at h
  split at h
  · exact (linkBody_sub _ u h).trans
      ((List.tail_sublist _).trans (List.tail_sublist l))
  · exact absurd h (by simp)

lemma linkMatch_sub {l u : List Char} (h : linkMatch l = some u) :
    List.Sublist u l := by
  unfold linkMatch at h
  split at h
  · exact (linkBody_sub _ u h).trans (List.tail_sublist l)
  · exact absurd h (by simp)

lemma classify_content_sublist (l : List Char) (cp : Option (List Char)) :
    List.Sublist (classifyLine l cp).1.content l := by
  rcases classifyLine_cases l cp with
    ⟨lvl, txt, hm, hc⟩ | ⟨_, txt, hm, hc⟩ | ⟨_, _, txt, hm, hc⟩ |
    ⟨_, _, _, url, hm, hc⟩ | ⟨_, _, _, _, url, hm, hc⟩ |
    ⟨_, _, _, _, _, hc⟩ <;> rw [hc]
  · obtain ⟨htxt, _, _, _⟩ := headerMatch_some hm
    show List.Sublist (stripChars txt) l
    rw [htxt]
    exact ((strip_sublist _).trans
      ((List.dropWhile_suffix isWsChar).sublist)).trans (List.drop_sublist _ _)
  · obtain ⟨d, _, htxt, _⟩ := orderedMatch_some hm
    show List.Sublist (stripChars txt) l
    rw [htxt]
    exact ((strip_sublist _).trans
      ((List.dropWhile_suffix isWsChar).sublist)).trans (List.drop_sublist _ _)
  · obtain ⟨htxt, _⟩ := unorderedMatch_some hm
    show List.Sublist (stripChars txt) l
    rw [htxt]
    exact ((strip_sublist _).trans
      ((List.dropWhile_suffix isWsChar).sublist)).trans (List.drop_sublist _ _)
  · show List.Sublist (stripChars url) l
    exact (strip_sublist _).trans (imageMatch_sub hm)
  · show List.Sublist (stripChars url) l
    exact (strip_sublist _).trans (linkMatch_sub hm)
  · show List.Sublist (stripChars l) l
    exact strip_sublist l

lemma parseLines_no_nl :
    ∀ (lines : List (List Char)) (cp : Option (List Char)) e,
      e ∈ parseLines lines cp → (∀ line ∈ lines, '\n' ∉ line) →
      '\n' ∉ e.content := by
  intro lines
  induction lines with
  | nil => intro cp e he _; simp [parseLines] at he
  | cons line rest ih =>
      intro cp e he hlines
      simp only [parseLines] at he
      by_cases hb : (stripChars (rstripChars line)).isEmpty
      · rw [if_pos hb] at he
        exact ih cp e he (fun l' hl' => hlines l' (List.mem_cons_of_mem _ hl'))
      · rw [if_neg hb] at he
        rcases List.mem_cons.mp he with hhd | htl
        · subst hhd
          intro hmem
          have hsub := classify_content_sublist (rstripChars line) cp
          have : '\n' ∈ rstripChars line := hsub.subset hmem
          exact hlines line (List.mem_cons_self line rest)
            ((rstrip_sublist line).subset this)
        · exact ih _ e htl (fun l' hl' => hlines l' (List.mem_cons_of_mem _ hl'))

lemma parseLines_content_stripped :
    ∀ (lines : List (List Char)) (cp : Option (List Char)) e,
      e ∈ parseLines lines cp →
      stripChars e.content = e.content ∧ rstripChars e.content = e.content := by
  intro lines
  induction lines with
  | nil => intro cp e he; simp [parseLines] at he
  | cons line rest ih =>
      intro cp e he
      simp only [parseLines] at he
      by_cases hb : (stripChars (rstripChars line)).isEmpty
      · rw [if_pos hb] at he
        exact ih cp e he
      · rw [if_neg hb] at he
        rcases List.mem_cons.mp he with hhd | htl
        · subst hhd
          rcases classifyLine_cases (rstripChars line) cp with
            ⟨lvl, txt, hm, hc⟩ | ⟨_, txt, hm, hc⟩ | ⟨_, _, txt, hm, hc⟩ |
            ⟨_, _, _, url, hm, hc⟩ | ⟨_, _, _, _, url, hm, hc⟩ |
            ⟨_, _, _, _, _, hc⟩ <;> rw [hc] <;>
            exact ⟨strip_idem _, rstrip_strip _⟩
        · exact ih _ e htl

lemma parseLines_para_or_header :
    ∀ (lines : List (List Char)) (cp : Option (List Char)),
      (∀ line ∈ lines, orderedMatch (rstripChars line) = none ∧
        unorderedMatch (rstripChars line) = none ∧
        imageMatch (rstripChars line) = none ∧
        linkMatch (rstripChars line) = none) →
      ∀ e ∈ parseLines lines cp,
        e.type = "paragraph".toList ∨ isHeaderType e.type = true := by
  intro lines
  induction lines with
  | nil => intro cp _ e he; simp [parseLines] at he
  | cons line rest ih =>
      intro cp hyp e he
      simp only [parseLines] at he
      by_cases hb : (stripChars (rstripChars line)).isEmpty
      · rw [if_pos hb] at he
        exact ih cp (fun l' hl' => hyp l' (List.mem_cons_of_mem _ hl')) e he
      · rw [if_neg hb] at he
        obtain ⟨ho, hu, hi, hk⟩ := hyp line (List.mem_cons_self line rest)
        rcases List.mem_cons.mp he with hhd | htl
        · subst hhd
          rcases classifyLine_cases (rstripChars line) cp with
            ⟨lvl, txt, hm, hc⟩ | ⟨_, txt, hm, hc⟩ | ⟨_, _, txt, hm, hc⟩ |
            ⟨_, _, _, url, hm, hc⟩ | ⟨_, _, _, _, url, hm, hc⟩ |
            ⟨_, _, _, _, _, hc⟩ <;> rw [hc]
          · exact Or.inr (isHeaderType_headerTypeStr lvl)
          · rw [ho] at hm; exact absurd hm (by simp)
          · rw [hu] at hm; exact absurd hm (by simp)
          · rw [hi] at hm; exact absurd hm (by simp)
          · rw [hk] at hm; exact absurd hm (by simp)
          · exact Or.inl rfl
        · exact ih _ (fun l' hl' => hyp l' (List.mem_cons_of_mem _ hl')) e htl

/-- C4 counterexample: for the input `- [a](b)` the plain-text projection is
the line `[a](b)`, and parsing it a second time yields a `link` element —
not only `paragraph`/`header` kinds as the claim states. -/
theorem plain_text_reparse_counterexample :
    extract_plain_text (parse_markdown "- [a](b)".toList) = "[a](b)".toList ∧
    parse_markdown (extract_plain_text (parse_markdown "- [a](b)".toList)) =
      [⟨"link".toList, "b".toList, none⟩] ∧
    ((parse_markdown (extract_plain_text
        (parse_markdown "- [a](b)".toList))).all
      (fun e => e.type == "paragraph".toList || isHeaderType e.type)) =
      false := by decide

/-- C4 (amended): reparsing the plain-text projection yields only
`paragraph` and header kinds, provided no retained element's content is
itself matched at its start by a list, image, or link pattern (links and
images can otherwise reappear out of list-item or header contents, as the
counterexample shows). -/
theorem plain_text_reparse_amended :
    ∀ content : List Char,
      (∀ e ∈ parse_markdown content,
        e.type ≠ "link".toList → e.type ≠ "image".toList →
        orderedMatch e.content = none ∧ unorderedMatch e.content = none ∧
        imageMatch e.content = none ∧ linkMatch e.content = none) →
      ∀ e' ∈ parse_markdown (extract_plain_text (parse_markdown content)),
        e'.type = "paragraph".toList ∨ isHeaderType e'.type = true := by
  intro content hyp e' he'
  have hfact : ∀ c ∈ ((extract_plain_text_with_associations
        (parse_markdown content)).filter
        (fun e => decide (¬ (e.type = "link".toList ∨
          e.type = "image".toList)))).map (fun e => e.content),
      rstripChars c = c ∧ orderedMatch c = none ∧ unorderedMatch c = none ∧
      imageMatch c = none ∧ linkMatch c = none ∧ '\n' ∉ c := by
    intro c hc
    obtain ⟨ek, hek, hckc⟩ := List.mem_map.mp hc
    have hf := List.mem_filter.mp hek
    have hnotkl : ¬ (ek.type = "link".toList ∨ ek.type = "image".toList) := by
      simpa using hf.2
    obtain ⟨e₀, he₀, hty, hcon⟩ := plainAssoc_mem _ none ek hf.1
    have hnl : e₀.type ≠ "link".toList := fun h =>
      hnotkl (Or.inl (hty.trans h))
    have hni : e₀.type ≠ "image".toList := fun h =>
      hnotkl (Or.inr (hty.trans h))
    obtain ⟨ho, hu, hi, hk⟩ := hyp e₀ he₀ hnl hni
    have hstrip := parseLines_content_stripped _ none e₀ he₀
    have hnonl : '\n' ∉ e₀.content :=
      parseLines_no_nl _ none e₀ he₀ (splitOn_mem_no_sep content)
    rw [← hckc, hcon]
    exact ⟨hstrip.2, ho, hu, hi, hk, hnonl⟩
  rcases hcz : ((extract_plain_text_with_associations
      (parse_markdown content)).filter
      (fun e => decide (¬ (e.type = "link".toList ∨
        e.type = "image".toList)))).map (fun e => e.content)
    with _ | ⟨c₀, cs'⟩
  · have hempty : extract_plain_text (parse_markdown content) = [] := by
      unfold extract_plain_text
      rw [hcz]
      rfl
    rw [hempty] at he'
    rw [show parse_markdown ([] : List Char) = [] from by decide] at he'
    exact absurd he' (List.not_mem_nil e')
  · have hplain : extract_plain_text (parse_markdown content) =
        List.intercalate ['\n'] (c₀ :: cs') := by
      unfold extract_plain_text
      rw [hcz]
    have hsep : ∀ p ∈ c₀ :: cs', '\n' ∉ p := by
      intro p hp
      exact (hfact p (by rw [hcz]; exact hp)).2.2.2.2.2
    have hsplit : (List.intercalate ['\n'] (c₀ :: cs')).splitOn '\n' =
        c₀ :: cs' := List.splitOn_intercalate (c₀ :: cs') '\n' hsep (by simp)
    rw [hplain] at he'
    unfold parse_markdown at he'
    rw [hsplit] at he'
    refine parseLines_para_or_header (c₀ :: cs') none ?_ e' he'
    intro line hline
    obtain ⟨hr, ho, hu, hi, hk, _⟩ := hfact line (by rw [hcz]; exact hline)
    rw [hr]
    exact ⟨ho, hu, hi, hk⟩

/-- Witness for C4 (amended) at the single-paragraph document `hello`. -/
theorem plain_text_reparse_amended_witness :
    (⟨"paragraph".toList, "hello".toList, none⟩ : MdElement).type =
        "paragraph".toList ∨
      isHeaderType
        (⟨"paragraph".toList, "hello".toList, none⟩ : MdElement).type =
        true :=
  plain_text_reparse_amended "hello".toList (by decide)
    ⟨"paragraph".toList, "hello".toList, none⟩ (by decide)


/-! Section: HTML-to-Markdown converter (data_collection/web_scraper.py)

The parsed HTML tree (produced by the external BeautifulSoup collaborator)
is modelled as a tree of tags (name, attributes, children) and text nodes.
`get_text(strip=True)` flattens all descendant strings in document order,
stripping each (whitespace-only strings become empty) and concatenating
with the empty separator. -/

inductive HNode where
  | tag : List Char → List (List Char × List Char) → List HNode → HNode
  | text : List Char → HNode

mutual

/-- All descendant strings of a node, in document order. -/
def textsOf : HNode → List (List Char)
  | .text s => [s]
  | .tag _ _ ch => textsOfList ch

def textsOfList : List HNode → List (List Char)
  | [] => []
  | n :: rest => textsOf n ++ textsOfList rest

end

/-- Python `element.get_text(strip=True)`: each descendant string stripped, all
concatenated with the empty separator (so whitespace-only strings vanish). -/
def get_text_strip (n : HNode) : List Char :=
  ((textsOf n).map stripChars).flatten

/-- Python `element.get(key, "")` on the attribute mapping. -/
def attrGet (attrs : List (List Char × List Char)) (k : List Char) :
    List Char :=
  match attrs with
  | [] => []
  | (k', v) :: rest => if k = k' then v else attrGet rest k

/-- Python `tag.find_all(name)` (recursive): all descendant tags with the given
name, in document (pre-order) order, the tag itself excluded. -/
def findDescList (nm : List Char) : List HNode → List HNode
  | [] => []
  | .text _ :: rest => findDescList nm rest
  | .tag t a ch :: rest =>
      (if t = nm then [HNode.tag t a ch] else []) ++
        findDescList nm ch ++ findDescList nm rest

def findDesc (nm : List Char) : HNode → List HNode
  | .text _ => []
  | .tag _ _ ch => findDescList nm ch

/-- All descendant tags whose name is one of `nms`, in document order
(used to describe the document order of mixed `th`/`td` cells). -/
def findDescAnyList (nms : List (List Char)) : List HNode → List HNode
  | [] => []
  | .text _ :: rest => findDescAnyList nms rest
  | .tag t a ch :: rest =>
      (if t ∈ nms then [HNode.tag t a ch] else []) ++
        findDescAnyList nms ch ++ findDescAnyList nms rest

def findDescAny (nms : List (List Char)) : HNode → List HNode
  | .text _ => []
  | .tag _ _ ch => findDescAnyList nms ch

/-- Modelled from the spec: §4.1 URL Resolver (`resolve(base, reference)`),
implemented in the program by `requests.compat.urljoin`, an external
collaborator that is not part of this repository.  Standard
relative-reference resolution for the reference shapes the converter
produces: absolute references pass through, an empty reference yields the
base unchanged, a root-relative reference (leading `/`) is resolved
against the scheme and authority of the base, and any other reference is
resolved against the base's directory. -/
def urljoin (base url : List Char) : List Char :=
  if "http://".toList.isPrefixOf url ∨ "https://".toList.isPrefixOf url then
    url
  else if url = [] then base
  else if url.head? = some '/' then schemeHost base ++ url
  else (base.reverse.dropWhile (fun c => !(c == '/'))).reverse ++ url
where
  afterSchemeSplit : List Char → Option (List Char × List Char)
    | [] => none
    | ':' :: '/' :: '/' :: rest => some ([], rest)
    | c :: rest => (afterSchemeSplit rest).map (fun p => (c :: p.1, p.2))
  schemeHost (b : List Char) : List Char :=
    match afterSchemeSplit b with
    | some (sch, rest) =>
        sch ++ "://".toList ++ rest.takeWhile (fun c => !(c == '/'))
    | none => b.takeWhile (fun c => !(c == '/'))

/-- Python `"| " + " | ".join(cells) + " |"` (web_scraper.py lines 218, 221, 227). -/
def renderRow (cells : List (List Char)) : List Char :=
  "| ".toList ++ List.intercalate " | ".toList cells ++ " |".toList

/-- Python `num_columns = max(len(row) for row in rows)` (line 212). -/
def numColumns (rows : List (List (List Char))) : Nat :=
  (rows.map List.length).foldr max 0

/-- The `markdown_table` line list of `_parse_table` (lines 216-228):
header row as-is, separator row of `---` per column, and each data row
right-padded with empty cells to `num_columns`. -/
def markdownTableLines (rows : List (List (List Char))) : List (List Char) :=
  match rows with
  | [] => []
  | r0 :: rest =>
      renderRow r0 ::
        renderRow (List.replicate (numColumns (r0 :: rest)) "---".toList) ::
        rest.map (fun r =>
          renderRow (r ++ List.replicate (numColumns (r0 :: rest) - r.length)
            []))

/-- The row-independent part of `WebScraper._parse_table` (lines 208-230):
empty rows give the empty string, otherwise the joined table lines. -/
def render_table (rows : List (List (List Char))) : List Char :=
  if rows = [] then [] else List.intercalate ['\n'] (markdownTableLines rows)

/-- The per-`tr` cell gathering of `_parse_table` (lines 201-205): all `th`
cells first, then all `td` cells. -/
def rowCells (tr : HNode) : List (List Char) :=
  (findDesc "th".toList tr).map get_text_strip ++
    (findDesc "td".toList tr).map get_text_strip

/-- Python `WebScraper._parse_table` (lines 189-230) on a table node. -/
def parse_table (tbl : HNode) : List Char :=
  render_table ((findDesc "tr".toList tbl).map rowCells)

/-- Accumulated converter output: the `markdown_lines` accumulator plus the
`images` and `tables` metadata lists. -/
structure ConvOut where
  lines : List (List Char)
  images : List (List Char)
  tables : List (List Char)
deriving DecidableEq, Repr

def ConvOut.empty : ConvOut := ⟨[], [], []⟩

def ConvOut.app (a b : ConvOut) : ConvOut :=
  ⟨a.lines ++ b.lines, a.images ++ b.images, a.tables ++ b.tables⟩

/-- Python `find_all("li", recursive=False)` membership test. -/
def isLiTag : HNode → Bool
  | .tag t _ _ => t = "li".toList
  | .text _ => false

/-- Python `find_all(["ul", "ol"], recursive=False)` membership test. -/
def isListContainerTag : HNode → Bool
  | .tag t _ _ => t = "ul".toList ∨ t = "ol".toList
  | .text _ => false

/-- Python `isinstance(child, Tag)` membership test (the default recursion). -/
def isAnyTag : HNode → Bool
  | .tag _ _ _ => true
  | .text _ => false

/-- Python `f"h{k}"[1]` as a level: the numeric suffix of a heading tag name. -/
def headerLevel (t : List Char) : Nat :=
  if t = "h1".toList then 1 else if t = "h2".toList then 2
  else if t = "h3".toList then 3 else if t = "h4".toList then 4
  else if t = "h5".toList then 5 else if t = "h6".toList then 6 else 0

mutual

/-- Python `WebScraper._html_to_markdown` (lines 88-187): the recursive
kind-dispatch tree walk, returning the appended markdown lines and the
image/table metadata produced by this call subtree. -/
def html_to_markdown (base : List Char) : HNode → Nat → ConvOut
  | .text _, _ => ConvOut.empty
  | .tag t attrs ch, ind =>
    if t = "h1".toList ∨ t = "h2".toList ∨ t = "h3".toList ∨
        t = "h4".toList ∨ t = "h5".toList ∨ t = "h6".toList then
      ⟨[List.replicate (headerLevel t) '#' ++ [' '] ++
        get_text_strip (.tag t attrs ch)], [], []⟩
    else if t = "p".toList then
      if get_text_strip (.tag t attrs ch) = [] then ConvOut.empty
      else ⟨[get_text_strip (.tag t attrs ch)], [], []⟩
    else if t = "ul".toList then convFiltered base isLiTag ch (ind + 1)
    else if t = "ol".toList then convFiltered base isLiTag ch (ind + 1)
    else if t = "li".toList then
      let rest := convFiltered base isListContainerTag ch (ind + 1)
      ⟨(List.replicate (2 * (ind - 1)) ' ' ++ "- ".toList ++
          get_text_strip (.tag t attrs ch)) :: rest.lines,
        rest.images, rest.tables⟩
    else if t = "strong".toList ∨ t = "b".toList then
      ⟨["**".toList ++ get_text_strip (.tag t attrs ch) ++ "**".toList],
        [], []⟩
    else if t = "em".toList ∨ t = "i".toList then
      ⟨["*".toList ++ get_text_strip (.tag t attrs ch) ++ "*".toList],
        [], []⟩
    else if t = "a".toList then
      ⟨["[".toList ++ get_text_strip (.tag t attrs ch) ++ "](".toList ++
        urljoin base (attrGet attrs "href".toList) ++ ")".toList], [], []⟩
    else if t = "img".toList then
      ⟨["![".toList ++ attrGet attrs "alt".toList ++ "](".toList ++
        urljoin base (attrGet attrs "src".toList) ++ ")".toList],
        [urljoin base (attrGet attrs "src".toList)], []⟩
    else if t = "table".toList then
      ⟨[parse_table (.tag t attrs ch)], [], [parse_table (.tag t attrs ch)]⟩
    else convFiltered base isAnyTag ch ind

/-- The child-iteration loops of `_html_to_markdown`: visit, in order,
exactly the children satisfying the loop's filter, at the given indent. -/
def convFiltered (base : List Char) (pred : HNode → Bool) :
    List HNode → Nat → ConvOut
  | [], _ => ConvOut.empty
  | n :: rest, ind =>
    ConvOut.app (if pred n then html_to_markdown base n ind else ConvOut.empty)
      (convFiltered base pred rest ind)

end

/-! Section: Table converter and paragraph branch claims (C2, C5, C6) -/

/-- Number of pipe-delimited cells of a rendered row (pipes minus one). -/
def pipeCellCount (l : List Char) : Nat := l.count '|' - 1

lemma le_foldr_max : ∀ (l : List Nat) (x : Nat), x ∈ l → x ≤ l.foldr max 0 := by
  intro l
  induction l with
  | nil => intro x hx; simp at hx
  | cons a t ih =>
      intro x hx
      rcases List.mem_cons.mp hx with h | h
      · subst h
        exact le_max_left _ _
      · exact le_trans (ih x h) (le_max_right _ _)

lemma numColumns_ge (rows : List (List (List Char))) :
    ∀ r ∈ rows, r.length ≤ numColumns rows := by
  intro r hr
  exact le_foldr_max _ _ (List.mem_map_of_mem List.length hr)

/-- C5 counterexample: for `rows = [["a"], ["b", "c"]]` the header line has
1 pipe-delimited cell while the data line has 2, so "each data line has the
same number of pipe-delimited cells as the header line" is false (the
header row is not padded, only data rows are padded to the max width). -/
theorem render_table_counterexample :
    render_table [["a".toList], ["b".toList, "c".toList]] =
      ("| a |".toList ++ '\n' :: "| --- | --- |".toList ++
        '\n' :: "| b | c |".toList) ∧
    pipeCellCount "| a |".toList = 1 ∧
    pipeCellCount "| b | c |".toList = 2 ∧
    (1 : Nat) ≠ 2 := by decide

/-- C5 (amended): empty rows yield the empty string; for non-empty rows the
output has exactly `len rows + 1` lines — the header row rendered from
`rows[0]` unpadded, one separator row with `numColumns` cells, and each
data row right-padded with empty cells to exactly `numColumns` (the
maximum row width) cells; the header row keeps its own
`rows[0].length` cells, which can differ from `numColumns`. -/
theorem render_table_amended :
    (render_table ([] : List (List (List Char))) = []) ∧
    ∀ (r0 : List (List Char)) (rest : List (List (List Char))),
      render_table (r0 :: rest) =
        List.intercalate ['\n'] (markdownTableLines (r0 :: rest)) ∧
      markdownTableLines (r0 :: rest) =
        renderRow r0 ::
          renderRow (List.replicate (numColumns (r0 :: rest)) "---".toList) ::
          rest.map (fun r => renderRow (r ++
            List.replicate (numColumns (r0 :: rest) - r.length) [])) ∧
      (markdownTableLines (r0 :: rest)).length = (r0 :: rest).length + 1 ∧
      r0.length ≤ numColumns (r0 :: rest) ∧
      ∀ r ∈ rest,
        (r ++ List.replicate (numColumns (r0 :: rest) - r.length) []).length =
          numColumns (r0 :: rest) := by
  refine ⟨rfl, ?_⟩
  intro r0 rest
  refine ⟨?_, rfl, ?_, ?_, ?_⟩
  · unfold render_table
    rw [if_neg (by simp)]
  · simp [markdownTableLines]
  · exact numColumns_ge (r0 :: rest) r0 (List.mem_cons_self r0 rest)
  · intro r hr
    have hle : r.length ≤ numColumns (r0 :: rest) :=
      numColumns_ge (r0 :: rest) r (List.mem_cons_of_mem r0 hr)
    simp [List.length_append, List.length_replicate]
    omega

/-- Witness for C5 (amended) at `rows = [["a"], ["b", "c"]]`,
`r = ["b", "c"]`. -/
theorem render_table_amended_witness :
    (["b".toList, "c".toList] ++
      List.replicate (numColumns [["a".toList], ["b".toList, "c".toList]] -
        (["b".toList, "c".toList] : List (List Char)).length) []).length =
      numColumns [["a".toList], ["b".toList, "c".toList]] :=
  (render_table_amended.2 ["a".toList] [["b".toList, "c".toList]]).2.2.2.2
    ["b".toList, "c".toList] (by decide)

/-- C6 counterexample: in a `tr` whose `td` precedes its `th` in document
order, the converter gathers the `th` cell first — `["B", "A"]` — which is
not the document order `["A", "B"]` of the cells within the row. -/
theorem table_cell_order_counterexample :
    rowCells (.tag "tr".toList [] [.tag "td".toList [] [.text "A".toList],
      .tag "th".toList [] [.text "B".toList]]) = ["B".toList, "A".toList] ∧
    (findDescAny ["th".toList, "td".toList]
        (.tag "tr".toList [] [.tag "td".toList [] [.text "A".toList],
          .tag "th".toList [] [.text "B".toList]])).map get_text_strip =
      ["A".toList, "B".toList] ∧
    (["B".toList, "A".toList] : List (List Char)) ≠
      ["A".toList, "B".toList] := by
  refine ⟨?_, ?_, by decide⟩
  · simp +decide [rowCells, findDesc, findDescList, get_text_strip,
      textsOf, textsOfList]
  · simp +decide [findDescAny, findDescAnyList, get_text_strip,
      textsOf, textsOfList]

lemma sizeOf_lt_of_mem_cons_head (n : HNode) (rest : List HNode) :
    sizeOf n < sizeOf (n :: rest) := by
  simp
  omega

/-- Every rendered table string placed in `metadata.tables` also appears as
an emitted markdown line of the same call subtree. -/
lemma tables_mem_lines (base : List Char) :
    ∀ (N : Nat),
      (∀ (n : HNode) (ind : Nat), sizeOf n ≤ N →
        ∀ t ∈ (html_to_markdown base n ind).tables,
          t ∈ (html_to_markdown base n ind).lines) ∧
      (∀ (pred : HNode → Bool) (ns : List HNode) (ind : Nat), sizeOf ns ≤ N →
        ∀ t ∈ (convFiltered base pred ns ind).tables,
          t ∈ (convFiltered base pred ns ind).lines) := by
  intro N
  induction N using Nat.strong_induction_on with
  | _ N ih =>
    constructor
    · intro n ind hN t ht
      match n with
      | .text s => simp [html_to_markdown, ConvOut.empty] at ht
      | .tag tg attrs ch =>
        have hch : sizeOf ch < N := by
          have : sizeOf ch < sizeOf (HNode.tag tg attrs ch) := by simp
          omega
        rw [html_to_markdown] at ht ⊢
        by_cases h1 : tg = "h1".toList ∨ tg = "h2".toList ∨
            tg = "h3".toList ∨ tg = "h4".toList ∨ tg = "h5".toList ∨
            tg = "h6".toList
        · rw [if_pos h1] at ht; simp at ht
        rw [if_neg h1] at ht ⊢
        by_cases h2 : tg = "p".toList
        · rw [if_pos h2] at ht
          by_cases h2b : get_text_strip (.tag tg attrs ch) = []
          · rw [if_pos h2b] at ht; simp [ConvOut.empty] at ht
          · rw [if_neg h2b] at ht; simp at ht
        rw [if_neg h2] at ht ⊢
        by_cases h3 : tg = "ul".toList
        · rw [if_pos h3] at ht ⊢
          exact (ih (sizeOf ch) hch).2 isLiTag ch (ind + 1) le_rfl t ht
        rw [if_neg h3] at ht ⊢
        by_cases h4 : tg = "ol".toList
        · rw [if_pos h4] at ht ⊢
          exact (ih (sizeOf ch) hch).2 isLiTag ch (ind + 1) le_rfl t ht
        rw [if_neg h4] at ht ⊢
        by_cases h5 : tg = "li".toList
        · rw [if_pos h5] at ht ⊢
          simp only at ht ⊢
          exact List.mem_cons_of_mem _
            ((ih (sizeOf ch) hch).2 isListContainerTag ch (ind + 1) le_rfl t ht)
        rw [if_neg h5] at ht ⊢
        by_cases h6 : tg = "strong".toList ∨ tg = "b".toList
        · rw [if_pos h6] at ht; simp at ht
        rw [if_neg h6] at ht ⊢
        by_cases h7 : tg = "em".toList ∨ tg = "i".toList
        · rw [if_pos h7] at ht; simp at ht
        rw [if_neg h7] at ht ⊢
        by_cases h8 : tg = "a".toList
        · rw [if_pos h8] at ht; simp at ht
        rw [if_neg h8] at ht ⊢
        by_cases h9 : tg = "img".toList
        · rw [if_pos h9] at ht; simp at ht
        rw [if_neg h9] at ht ⊢
        by_cases h10 : tg = "table".toList
        · rw [if_pos h10] at ht ⊢
          simp only [List.mem_singleton] at ht
          subst ht
          exact List.mem_singleton.mpr rfl
        rw [if_neg h10] at ht ⊢
        exact (ih (sizeOf ch) hch).2 isAnyTag ch ind le_rfl t ht
    · intro pred ns ind hN t ht
      match ns with
      | [] => simp [convFiltered, ConvOut.empty] at ht
      | n :: rest =>
        have hn : sizeOf n < N := by
          have := sizeOf_lt_of_mem_cons_head n rest
          omega
        have hrest : sizeOf rest < N := by
          have : sizeOf rest < sizeOf (n :: rest) := by simp
          omega
        rw [convFiltered] at ht ⊢
        simp only [ConvOut.app] at ht ⊢
        rcases List.mem_append.mp ht with h | h
        · apply List.mem_append_left
          by_cases hp : pred n
          · rw [if_pos hp] at h ⊢
            exact (ih (sizeOf n) hn).1 n ind le_rfl t h
          · rw [if_neg hp] at h
            simp [ConvOut.empty] at h
        · exact List.mem_append_right _
            ((ih (sizeOf rest) hrest).2 pred rest ind le_rfl t h)

/-- C6 (amended): the converter gathers a row's cells with all `th` cells
first and then all `td` cells (each group in document order, but not the
overall document order of the cells within the `tr`); it renders the table
via the table converter as one block and appends the identical rendered
text to `metadata.tables`; and every rendered table recorded in the
metadata appears among the emitted markdown lines of the same traversal. -/
theorem table_conversion_amended :
    (∀ (tr : HNode), rowCells tr =
      (findDesc "th".toList tr).map get_text_strip ++
        (findDesc "td".toList tr).map get_text_strip) ∧
    (∀ (base : List Char) (attrs : List (List Char × List Char))
        (ch : List HNode) (ind : Nat),
      html_to_markdown base (.tag "table".toList attrs ch) ind =
        ⟨[parse_table (.tag "table".toList attrs ch)], [],
          [parse_table (.tag "table".toList attrs ch)]⟩) ∧
    (∀ (base : List Char) (n : HNode) (ind : Nat),
      ∀ t ∈ (html_to_markdown base n ind).tables,
        t ∈ (html_to_markdown base n ind).lines) := by
  refine ⟨fun tr => rfl, ?_, ?_⟩
  · intro base attrs ch ind
    rw [html_to_markdown]
    rw [if_neg (by decide), if_neg (by decide), if_neg (by decide),
      if_neg (by decide), if_neg (by decide), if_neg (by decide),
      if_neg (by decide), if_neg (by decide), if_neg (by decide),
      if_pos rfl]
  · intro base n ind t ht
    exact (tables_mem_lines base (sizeOf n)).1 n ind le_rfl t ht

/-- Witness for C6 (amended): the metadata/lines containment at a concrete
one-table document. -/
theorem table_conversion_amended_witness :
    parse_table (.tag "table".toList []
        [.tag "tr".toList [] [.tag "th".toList [] [.text "B".toList]]]) ∈
      (html_to_markdown "b".toList
        (.tag "body".toList []
          [.tag "table".toList []
            [.tag "tr".toList [] [.tag "th".toList [] [.text "B".toList]]]])
        0).lines :=
  table_conversion_amended.2.2 "b".toList
    (.tag "body".toList []
      [.tag "table".toList []
        [.tag "tr".toList [] [.tag "th".toList [] [.text "B".toList]]]])
    0
    (parse_table (.tag "table".toList []
      [.tag "tr".toList [] [.tag "th".toList [] [.text "B".toList]]]))
    (by simp +decide [html_to_markdown, convFiltered, isAnyTag, ConvOut.app,
      ConvOut.empty])

/-- C2 counterexample: converting
`<p>Hi <a href="/x">there</a></p>` (inside a body) with base
`https://e.com/` emits the single line `Hithere` — the paragraph branch
takes the flattened text of the whole paragraph including the anchor text
(each string stripped, concatenated), and never emits a separate
`[there](https://e.com/x)` line, contrary to the claim. -/
theorem paragraph_branch_counterexample :
    (html_to_markdown "https://e.com/".toList
      (.tag "body".toList [] [.tag "p".toList []
        [.text "Hi ".toList,
         .tag "a".toList [("href".toList, "/x".toList)]
           [.text "there".toList]]])
      0).lines = ["Hithere".toList] ∧
    (["Hithere".toList] : List (List Char)) ≠
      ["Hi".toList, "[there](https://e.com/x)".toList] := by
  refine ⟨?_, by decide⟩
  simp +decide [html_to_markdown, convFiltered, isAnyTag, ConvOut.app,
    ConvOut.empty, get_text_strip, textsOf, textsOfList]

/-- C2 (amended): the paragraph branch emits exactly one line — the
flattened text of the whole paragraph subtree (every descendant string
stripped and concatenated, anchors included) — or nothing when that text
is empty; anchors inside a paragraph are never recursed into and produce
no separate line; on the scenario fragment the output is the single line
`Hithere` with no image or table metadata. -/
theorem paragraph_branch_amended :
    (∀ (base : List Char) (attrs : List (List Char × List Char))
        (ch : List HNode) (ind : Nat),
      html_to_markdown base (.tag "p".toList attrs ch) ind =
        if get_text_strip (.tag "p".toList attrs ch) = [] then ConvOut.empty
        else ⟨[get_text_strip (.tag "p".toList attrs ch)], [], []⟩) ∧
    html_to_markdown "https://e.com/".toList
      (.tag "body".toList [] [.tag "p".toList []
        [.text "Hi ".toList,
         .tag "a".toList [("href".toList, "/x".toList)]
           [.text "there".toList]]])
      0 = ⟨["Hithere".toList], [], []⟩ := by
  constructor
  · intro base attrs ch ind
    rw [html_to_markdown]
    rw [if_neg (by decide), if_pos rfl]
  · simp +decide [html_to_markdown, convFiltered, isAnyTag, ConvOut.app,
      ConvOut.empty, get_text_strip, textsOf, textsOfList]

end RagSupport

